import Mathlib

/-!
Outline indexer and selection collector of the Word task pane.

A shallow embedding of `src/taskpane/taskpane.js`.

Modelling conventions:

* A JavaScript string is a Lean `String` (a list of Unicode scalar values).  Every
  length the script inspects is the length of a normalized text, which holds only
  ASCII characters, so counting scalars and counting UTF-16 code units agree there.
* The host document is a list of `Paragraph` objects.  Each `await context.sync()`
  is a call to a host oracle `sync : Nat → Bool`, indexed by the number of the call
  within the pass: `true` when the call returns, `false` when it throws.
* The two globals `clipboardData` and `allParagraphsData` form the `Session`.
* A JavaScript array with holes is a `List (Option String)`; `none` is a hole.
* Numbers are doubles.  `parseInt` rounds the decimal value of a run of digits to the
  nearest double, and the comparator is modelled by the exact difference of two such
  doubles, which has the sign the sort reads.
* `Array.prototype.sort` follows the steps of the engine V8 for arrays of fewer than 64
  elements (run detection, then binary insertion); the language leaves the order open
  when the comparator is not consistent.  The host method `localeCompare` is a parameter.
-/

namespace TaskPane

/-! ## Text helpers -/

/-- White space as recognised both by `String.prototype.trim` and by the regular
expression class `\s`: TAB, LF, VT, FF, CR, SP, NBSP, U+1680, U+2000..U+200A,
U+2028, U+2029, U+202F, U+205F, U+3000 and U+FEFF. -/
def isWhiteSpace (c : Char) : Bool :=
  c.toNat == 9 || c.toNat == 10 || c.toNat == 11 || c.toNat == 12 || c.toNat == 13 ||
  c.toNat == 32 || c.toNat == 160 || c.toNat == 5760 ||
  (decide (8192 ≤ c.toNat) && decide (c.toNat ≤ 8202)) ||
  c.toNat == 8232 || c.toNat == 8233 || c.toNat == 8239 || c.toNat == 8287 ||
  c.toNat == 12288 || c.toNat == 65279

/-- The class `[\x20-\x7E]`: printable ASCII. -/
def isPrintableAscii (c : Char) : Bool :=
  decide (32 ≤ c.toNat) && decide (c.toNat ≤ 126)

/-- Characters of `text.trim()`: white space removed at both ends. -/
def trimChars (l : List Char) : List Char :=
  ((l.dropWhile isWhiteSpace).reverse.dropWhile isWhiteSpace).reverse

/-- The method `text.trim()`. -/
def trim (text : String) : String :=
  ⟨trimChars text.data⟩

/-- Characters of `.replace(/\s+/g, " ")`: every maximal run of white space becomes one
space.  The flag records that the previous character belonged to a run that has already
been replaced. -/
def collapseWhiteSpace : Bool → List Char → List Char
  | _, [] => []
  | inRun, c :: cs =>
    if isWhiteSpace c then
      if inRun then collapseWhiteSpace true cs else ' ' :: collapseWhiteSpace true cs
    else c :: collapseWhiteSpace false cs

/-- Characters of `.replace(/[^\x20-\x7E]/g, "")`. -/
def stripNonPrintable (l : List Char) : List Char :=
  l.filter isPrintableAscii

/-- The helper `normalizeText(text)`: trim, collapse white space, drop everything
outside printable ASCII, in that order. -/
def normalizeText (text : String) : String :=
  ⟨stripNonPrintable (collapseWhiteSpace false (trim text).data)⟩

/-! ## Host document -/

/-- The host object `paragraph.listItem`: nesting level and rendered marker
(`none` when the host supplies no marker). -/
structure ListItem where
  level : Nat
  listString : Option String
  deriving DecidableEq, Repr

/-- A host paragraph: raw text, and its list item when the paragraph is one. -/
structure Paragraph where
  text : String
  listItem : Option ListItem
  deriving DecidableEq, Repr

/-- The host flag `paragraph.isListItem`. -/
def Paragraph.isListItem (p : Paragraph) : Bool :=
  p.listItem.isSome

/-! ## Index records and pass state -/

/-- One element of `allParagraphsData`. -/
structure ParagraphRecord where
  key : String
  value : String
  originalText : String
  isListItem : Bool
  deriving DecidableEq, Repr

/-- One element of `clipboardData`. -/
structure SelectionEntry where
  key : String
  value : String
  deriving DecidableEq, Repr

/-- The two globals of the script. -/
structure Session where
  clipboardData : List SelectionEntry
  allParagraphsData : List ParagraphRecord
  deriving DecidableEq, Repr

/-- Variables live during one indexing pass: the global being filled and the two
locals `parentNumbering` and `lastNumbering`. -/
structure IndexState where
  allParagraphsData : List ParagraphRecord
  parentNumbering : List (Option String)
  lastNumbering : String
  deriving DecidableEq, Repr

/-- Array assignment `arr[i] = v`: overwrite inside the array, otherwise grow it,
leaving holes below index `i`. -/
def assignAt (arr : List (Option String)) (i : Nat) (v : String) : List (Option String) :=
  if i < arr.length then arr.set i (some v)
  else arr ++ List.replicate (i - arr.length) none ++ [some v]

/-- The statements of lines 54 to 58: truncate the ancestor stack when
`level <= parentNumbering.length`, then store the marker at index `level`. -/
def adjustNumbering (parentNumbering : List (Option String)) (level : Nat)
    (listString : String) : List (Option String) :=
  assignAt (if level ≤ parentNumbering.length then parentNumbering.take level
            else parentNumbering) level listString

/-- One iteration of the loop of lines 61 to 65: append the marker and a dot when the
slot is truthy (defined and not the empty string). -/
def appendSlot (parentNumbering : List (Option String)) (fullNumbering : String)
    (j : Nat) : String :=
  match parentNumbering[j]? with
  | some (some m) => if m = "" then fullNumbering else fullNumbering ++ m ++ "."
  | _ => fullNumbering

/-- The loop `for (let j = 0; j <= level; j++)` of lines 60 to 65. -/
def concatSlots (parentNumbering : List (Option String)) (level : Nat) : String :=
  (List.range (level + 1)).foldl (appendSlot parentNumbering) ""

/-- The call `.replace(/\.$/, "")`: drop one dot at the very end. -/
def stripTrailingDot (s : String) : String :=
  if s.data.getLast? = some '.' then ⟨s.data.dropLast⟩ else s

/-- Lines 60 to 67: the full numbering of a list item. -/
def fullNumbering (parentNumbering : List (Option String)) (level : Nat) : String :=
  stripTrailingDot (concatSlots parentNumbering level)

/-- Lines 50 to 75: the list-item branch of the loop body. -/
def pushListItem (li : ListItem) (text originalText : String) (st : IndexState) :
    IndexState :=
  let parentNumbering := adjustNumbering st.parentNumbering li.level (li.listString.getD "")
  let key := fullNumbering parentNumbering li.level
  { allParagraphsData := st.allParagraphsData ++
      [{ key := key, value := text, originalText := originalText, isListItem := true }]
    parentNumbering := parentNumbering
    lastNumbering := key }

/-- Line 78: the key of a paragraph that is not a list item. -/
def plainKey (lastNumbering : String) (i : Nat) : String :=
  if lastNumbering = "" then "text_" ++ toString (i + 1) else lastNumbering ++ ".text"

/-- Lines 77 to 84: the branch of the loop body for a paragraph that is not a list
item. -/
def pushPlain (i : Nat) (text originalText : String) (st : IndexState) : IndexState :=
  { st with allParagraphsData := st.allParagraphsData ++
      [{ key := plainKey st.lastNumbering i, value := text, originalText := originalText,
         isListItem := false }] }

/-- How a pass over the paragraphs ended: it ran to the end, or a host read threw while
paragraph `i` was being processed.  Either way `st` holds the variables at that
moment. -/
inductive Outcome where
  | completed (st : IndexState)
  | aborted (i : Nat) (st : IndexState)
  deriving DecidableEq, Repr

/-- The variables held when the pass ended. -/
def Outcome.state : Outcome → IndexState
  | .completed st => st
  | .aborted _ st => st

/-- The loop of lines 35 to 86.  `c` numbers the next host call, `i` is the loop
counter. -/
def scanItems (sync : Nat → Bool) : Nat → Nat → List Paragraph → IndexState → Outcome
  | _, _, [], st => .completed st
  | c, i, p :: ps, st =>
    if sync c then
      let text := normalizeText p.text
      if text.length ≤ 1 then scanItems sync (c + 1) (i + 1) ps st
      else
        match p.listItem with
        | some li =>
          if sync (c + 1) then
            scanItems sync (c + 2) (i + 1) ps (pushListItem li text (trim p.text) st)
          else .aborted i st
        | none => scanItems sync (c + 1) (i + 1) ps (pushPlain i text (trim p.text) st)
    else .aborted i st

/-- The variables at the start of the loop (lines 31 to 33). -/
def initialIndexState : IndexState :=
  { allParagraphsData := [], parentNumbering := [], lastNumbering := "" }

/-- The function `loadAllParagraphsData`, with its `try`/`catch`: host call 0 loads the
paragraph collection; when it throws nothing has been assigned yet.  Afterwards the
global is reset and filled in place, so an exception leaves what was pushed so far. -/
def loadAllParagraphsData (sync : Nat → Bool) (items : List Paragraph) (s : Session) :
    Session :=
  if sync 0 then
    { s with allParagraphsData := (scanItems sync 1 0 items initialIndexState).state.allParagraphsData }
  else s

/-- A host on which every call returns. -/
def hostOk : Nat → Bool := fun _ => true

/-- The index built by a pass on which no host call fails. -/
def indexOf (items : List Paragraph) : List ParagraphRecord :=
  (loadAllParagraphsData hostOk items { clipboardData := [], allParagraphsData := [] }).allParagraphsData

/-- The loop body of lines 36 to 85 on a host whose calls all return. -/
def processParagraph (i : Nat) (p : Paragraph) (st : IndexState) : IndexState :=
  if (normalizeText p.text).length ≤ 1 then st
  else
    match p.listItem with
    | some li => pushListItem li (normalizeText p.text) (trim p.text) st
    | none => pushPlain i (normalizeText p.text) (trim p.text) st

/-- The loop of lines 35 to 86 on a host whose calls all return, from loop counter
`i`. -/
def processAll : Nat → List Paragraph → IndexState → IndexState
  | _, [], st => st
  | i, p :: ps, st => processAll (i + 1) ps (processParagraph i p st)

/-- The outcome `o` of a pass started at loop counter `i` in state `st` agrees with the
loop body having run on the paragraphs before the failure (on all of them when there
was none). -/
def Outcome.AgreesWith (o : Outcome) (i : Nat) (ps : List Paragraph) (st : IndexState) :
    Prop :=
  match o with
  | .completed st1 => st1 = processAll i ps st
  | .aborted k st1 => i ≤ k ∧ st1 = processAll i (ps.take (k - i)) st

/-- The ancestor stack held after a pass without host failure over the paragraphs
`pre`. -/
def stackAfter (pre : List Paragraph) : List (Option String) :=
  (scanItems hostOk 1 0 pre initialIndexState).state.parentNumbering

/-- The dot-separated segments of a key. -/
def segments (key : String) : List (List Char) :=
  key.data.splitOn '.'

/-! ## Selection collector -/

/-- The callback of `allParagraphsData.find` on line 120. -/
def matchesSelection (normalizedSelectedText selectedText : String)
    (para : ParagraphRecord) : Bool :=
  para.value == normalizedSelectedText || para.originalText == selectedText

/-- Lines 115 to 121: the record matched by a selected paragraph, if any. -/
def findMatch (allParagraphsData : List ParagraphRecord) (text : String) :
    Option ParagraphRecord :=
  let selectedText := trim text
  let normalizedSelectedText := normalizeText selectedText
  allParagraphsData.find? (matchesSelection normalizedSelectedText selectedText)

/-- The test `clipboardData.some(...)` of lines 125 to 127. -/
def isDuplicate (clipboardData : List SelectionEntry) (m : ParagraphRecord) : Bool :=
  clipboardData.any (fun item => item.key == m.key && item.value == m.value)

/-- The loop body of lines 111 to 137, acting on the local `newSelections`. -/
def selectParagraph (allParagraphsData : List ParagraphRecord)
    (clipboardData : List SelectionEntry) (newSelections : List SelectionEntry)
    (text : String) : List SelectionEntry :=
  match findMatch allParagraphsData text with
  | some m =>
    if isDuplicate clipboardData m then newSelections
    else newSelections ++ [{ key := m.key, value := m.value }]
  | none => newSelections

/-- The loop of lines 108 to 138: the candidates that survive, in selection order. -/
def collectSelections (allParagraphsData : List ParagraphRecord)
    (clipboardData : List SelectionEntry) (selection : List String) :
    List SelectionEntry :=
  selection.foldl (selectParagraph allParagraphsData clipboardData) []

/-- The class `\d`. -/
def isDigit (c : Char) : Bool :=
  decide (48 ≤ c.toNat) && decide (c.toNat ≤ 57)

/-- The value `key.match(/\d+/g)[0]`, the first maximal run of digits; `none` when
`match` returns `null` because the key has no digit. -/
def firstDigitRun (key : String) : Option (List Char) :=
  match key.data.dropWhile (fun c => !isDigit c) with
  | [] => none
  | d :: rest => some (d :: rest.takeWhile isDigit)

/-- The mathematical value of a run of decimal digits. -/
def decimalValue (digits : List Char) : Nat :=
  digits.foldl (fun n c => 10 * n + (c.toNat - 48)) 0

/-- The number of low bits of `n` that do not fit into the 53 bits of the significand of
a double: the number of halvings that bring `n` below 2^53.  The first argument bounds
the number of halvings. -/
def excessBits : Nat → Nat → Nat
  | 0, _ => 0
  | fuel + 1, n => if n < 2 ^ 53 then 0 else 1 + excessBits fuel (n / 2)

/-- The number 2^1024, which no finite double reaches; it stands for `Infinity`. -/
def infinity : Nat :=
  2 ^ 256 * 2 ^ 256 * 2 ^ 256 * 2 ^ 256

/-- The double nearest to the natural number `n`, a tie going to the even significand,
and `infinity` when that is beyond the finite doubles. -/
def toDouble (n : Nat) : Nat :=
  if n < 2 ^ 53 then n
  else
    min
      ((if 2 ^ excessBits n n / 2 < n % 2 ^ excessBits n n ∨
            (n % 2 ^ excessBits n n = 2 ^ excessBits n n / 2 ∧
              n / 2 ^ excessBits n n % 2 = 1) then
          n / 2 ^ excessBits n n + 1
        else n / 2 ^ excessBits n n) * 2 ^ excessBits n n)
      infinity

/-- The call `parseInt` on a run of digits: the double nearest to its decimal value.  For
runs of more than 20 digits the language lets an engine round less exactly. -/
def parseInt (digits : List Char) : Int :=
  (toDouble (decimalValue digits) : Nat)

/-- The comparator of lines 145 to 154, as the sort reads it.  The host method
`localeCompare` is a parameter.  The difference of two doubles is taken exactly: it has
the sign of the double the script computes, and it is 0 exactly when that double is 0 or
NaN (`Infinity - Infinity`), which the sort reads as 0. -/
def compareEntries (localeCompare : String → String → Int) (a b : SelectionEntry) : Int :=
  match firstDigitRun a.key, firstDigitRun b.key with
  | some aMatch, some bMatch => parseInt aMatch - parseInt bMatch
  | _, _ => localeCompare a.key b.key

/-- The loop of the engine's run detection: how many of the elements that follow
`previous` continue the run ending in it.  An ascending run goes on while the next element
does not compare below its predecessor, a descending run while it does. -/
def runTail {α : Type} (cmp : α → α → Int) (isDescending : Bool) : α → List α → Nat
  | _, [] => 0
  | previous, current :: rest =>
    if isDescending then
      if cmp current previous < 0 then 1 + runTail cmp isDescending current rest else 0
    else
      if cmp current previous < 0 then 0 else 1 + runTail cmp isDescending current rest

/-- The binary search of the engine's insertion step: the place of `pivot` among the
elements `sorted`, searched between the indices `left` and `right`.  The first argument
bounds the number of halvings; the length of the interval is enough. -/
def binarySearch {α : Type} (cmp : α → α → Int) (pivot : α) (sorted : List α) :
    Nat → Nat → Nat → Nat
  | 0, left, _ => left
  | fuel + 1, left, right =>
    if left < right then
      match sorted[left + (right - left) / 2]? with
      | some e =>
        if cmp pivot e < 0 then
          binarySearch cmp pivot sorted fuel left (left + (right - left) / 2)
        else binarySearch cmp pivot sorted fuel (left + (right - left) / 2 + 1) right
      | none => left
    else left

/-- One step of the engine's binary insertion: `pivot` goes to the place the binary
search finds among the elements before it. -/
def binaryInsert {α : Type} (cmp : α → α → Int) (sorted : List α) (pivot : α) : List α :=
  sorted.take (binarySearch cmp pivot sorted sorted.length 0 sorted.length) ++
    pivot :: sorted.drop (binarySearch cmp pivot sorted sorted.length 0 sorted.length)

/-- The engine's binary insertion sort: the elements `rest`, first to last, are inserted
into the part already in place. -/
def binaryInsertionSort {α : Type} (cmp : α → α → Int) : List α → List α → List α
  | sorted, [] => sorted
  | sorted, pivot :: rest => binaryInsertionSort cmp (binaryInsert cmp sorted pivot) rest

/-- The method `Array.prototype.sort` with a comparator.  The language leaves the order
implementation-defined when the comparator is not consistent, so the steps are those of
the engine V8 for an array of fewer than 64 elements: find the run at the start of the
array (ascending, or strictly descending and then reversed), and bring in the remaining
elements by binary insertion.  The engine reads a comparator result NaN as 0. -/
def arraySort {α : Type} (cmp : α → α → Int) : List α → List α
  | [] => []
  | [x] => [x]
  | x0 :: x1 :: rest =>
    binaryInsertionSort cmp
      (if cmp x1 x0 < 0 then
        ((x0 :: x1 :: rest).take (2 + runTail cmp (decide (cmp x1 x0 < 0)) x1 rest)).reverse
       else (x0 :: x1 :: rest).take (2 + runTail cmp (decide (cmp x1 x0 < 0)) x1 rest))
      ((x0 :: x1 :: rest).drop (2 + runTail cmp (decide (cmp x1 x0 < 0)) x1 rest))

/-- The call `clipboardData.sort(comparator)` of lines 145 to 154. -/
def sortEntries (localeCompare : String → String → Int) (l : List SelectionEntry) :
    List SelectionEntry :=
  arraySort (compareEntries localeCompare) l

/-- The function `getListInfoFromSelection` on a host whose calls all return:
`selection` lists the texts of the selected paragraphs. -/
def getListInfoFromSelection (localeCompare : String → String → Int)
    (selection : List String) (s : Session) : Session :=
  let newSelections := collectSelections s.allParagraphsData s.clipboardData selection
  if newSelections.length > 0 then
    { s with clipboardData := sortEntries localeCompare (s.clipboardData ++ newSelections) }
  else s

/-- The method `Array.prototype.join`. -/
def join (sep : String) : List String → String
  | [] => ""
  | [x] => x
  | x :: y :: rest => x ++ sep ++ join sep (y :: rest)

/-- The template of line 174 for one pair. -/
def formatPair (pair : SelectionEntry) : String :=
  "\"" ++ pair.key ++ "\": \"" ++ pair.value ++ "\""

/-- The function `formatClipboardData`. -/
def formatClipboardData (clipboardData : List SelectionEntry) : String :=
  "\x7b\n" ++ join ",\n" (clipboardData.map formatPair) ++ "\n\x7d"

/-- The function `clearCopiedContent`. -/
def clearCopiedContent (s : Session) : Session :=
  { s with clipboardData := [] }

/-- A user action on the task pane. -/
inductive Action where
  | collect (selection : List String)
  | clear
  deriving DecidableEq, Repr

/-- The effect of one action on the session. -/
def applyAction (localeCompare : String → String → Int) (s : Session) :
    Action → Session
  | .collect selection => getListInfoFromSelection localeCompare selection s
  | .clear => clearCopiedContent s

/-- The effect of a sequence of actions, first to last. -/
def runActions (localeCompare : String → String → Int) (s : Session)
    (actions : List Action) : Session :=
  actions.foldl (applyAction localeCompare) s

/-- Comparison of two strings by code points, with result -1, 0 or 1: the
lexicographic order the specification names for the comparator's fallback. -/
def codepointCompare (a b : String) : Int :=
  if a.data < b.data then -1 else if b.data < a.data then 1 else 0

/-- Paragraph that is not a list item. -/
def plainParagraph (text : String) : Paragraph :=
  { text := text, listItem := none }

/-- List-item paragraph with the given level and marker. -/
def listParagraph (text : String) (level : Nat) (marker : String) : Paragraph :=
  { text := text, listItem := some { level := level, listString := some marker } }

/-- The document of the worked example of the specification. -/
def exampleDocument : List Paragraph :=
  [listParagraph "1) Intro" 0 "1)", plainParagraph "Some body text",
   listParagraph "a) Sub point" 1 "a)"]

/-- A session right after the example document has been indexed. -/
def exampleSession : Session :=
  { clipboardData := [], allParagraphsData := indexOf exampleDocument }

/-- A document that repeats a line of text. -/
def repeatedLineDocument : List Paragraph :=
  [plainParagraph "Not applicable", plainParagraph "Not applicable"]

/-- A host on which the second paragraph cannot be read: calls 0 and 1 return, call 2
throws. -/
def hostFailingAtSecondRead : Nat → Bool := fun n => decide (n < 2)

/-- The number the comparator reads off a key: what `parseInt` returns for its first run
of digits (0 for a key without digit, which the comparator does not read this way). -/
def keyNumber (key : String) : Int :=
  match firstDigitRun key with
  | some digits => parseInt digits
  | none => 0

/-- A document with a ninth and a tenth point. -/
def ninthTenthDocument : List Paragraph :=
  [listParagraph "Ninth point" 0 "9)", listParagraph "Tenth point" 0 "10)"]

/-- The markers among the entries `slots` that the key loop appends: the defined
entries that are not the empty string, in order. -/
def truthyEntries (slots : List (Option String)) : List String :=
  (slots.filterMap id).filter (fun m => m ≠ "")

/-- The markers that the key loop appends for a list item of level `level`: the truthy
entries of stack slots 0 to `level`. -/
def truthySlots (parentNumbering : List (Option String)) (level : Nat) : List String :=
  truthyEntries (parentNumbering.take (level + 1))

/-- The defined entries of stack slots 0 to `level`, empty strings included. -/
def definedSlots (parentNumbering : List (Option String)) (level : Nat) : List String :=
  (parentNumbering.take (level + 1)).filterMap id

/-- The key as the specification words it: every defined stack entry of slots 0 to
`level` joined with ".", then a trailing "." stripped if the last segment was empty. -/
def specifiedKey (parentNumbering : List (Option String)) (level : Nat) : String :=
  if (definedSlots parentNumbering level).getLast? = some "" then
    stripTrailingDot (join "." (definedSlots parentNumbering level))
  else join "." (definedSlots parentNumbering level)

/-- The key of the last list-item record among `records`; the empty string when there
is none. -/
def lastListKey (records : List ParagraphRecord) : String :=
  match (records.filter (fun r => r.isListItem)).getLast? with
  | some r => r.key
  | none => ""

/-- A document made of one list item whose marker is empty. -/
def emptyMarkerDocument : List Paragraph :=
  [listParagraph "Bullet item" 0 ""]

/-- Two records agree in value, original text and list flag, and their keys are equal or
are two positional keys "text_n" and "text_(n+1)". -/
def SameUpToPosition (r r' : ParagraphRecord) : Prop :=
  r.value = r'.value ∧ r.originalText = r'.originalText ∧ r.isListItem = r'.isListItem ∧
    (r.key = r'.key ∨
      ∃ n : Nat, r.key = "text_" ++ toString n ∧ r'.key = "text_" ++ toString (n + 1))

/-- A document with a preamble, a numbered item and a lettered item. -/
def mixedKeysDocument : List Paragraph :=
  [plainParagraph "Preamble text", listParagraph "Numbered item" 0 "2)",
   listParagraph "Lettered item" 0 "a)"]

/-- The number of host reads the scan needs for one paragraph: one for its text and list
flag, and one more for its list item when it is a list item whose normalized text is
longer than one character. -/
def hostReads (p : Paragraph) : Nat :=
  if 1 < (normalizeText p.text).length ∧ p.isListItem = true then 2 else 1

/-- The position, counted from the first paragraph of `items`, of the paragraph one of
whose host reads is the first to fail, when the reads of the scan are numbered from `c`
on; `none` when every read the scan needs returns. -/
def failingParagraph (sync : Nat → Bool) : Nat → List Paragraph → Option Nat
  | _, [] => none
  | c, p :: ps =>
    if (List.range (hostReads p)).all (fun k => sync (c + k)) then
      (failingParagraph sync (c + hostReads p) ps).map (fun i => i + 1)
    else some 0

/-- No collector pass of the sequence `actions`, run from the session `s`, has two
surviving candidates with the same key and value. -/
def noRepeatedCandidates (localeCompare : String → String → Int) :
    Session → List Action → Bool
  | _, [] => true
  | s, Action.collect selection :: rest =>
    decide (collectSelections s.allParagraphsData s.clipboardData selection).Nodup &&
      noRepeatedCandidates localeCompare
        (applyAction localeCompare s (Action.collect selection)) rest
  | s, Action.clear :: rest =>
    noRepeatedCandidates localeCompare (applyAction localeCompare s Action.clear) rest

/-- The first run of decimal digits of a key; empty when the key has no digit. -/
def leadingDigits (key : String) : List Char :=
  (key.data.dropWhile (fun c => !c.isDigit)).takeWhile (fun c => c.isDigit)

/-- The integer that the first run of decimal digits of a key denotes (0 when the key
has no digit). -/
def leadingNumber (key : String) : Nat :=
  Nat.ofDigits 10 ((leadingDigits key).reverse.map (fun c => c.toNat - 48))

/-- A document whose two list items are numbered beyond 2^53. -/
def hugeNumberDocument : List Paragraph :=
  [listParagraph "Large item" 0 "9007199254740993)",
   listParagraph "Next item" 0 "9007199254740992)"]

/-- A document with a preamble, a lettered item and a numbered item. -/
def tiedKeysDocument : List Paragraph :=
  [plainParagraph "Preamble text", listParagraph "Lettered item" 0 "a)",
   listParagraph "Numbered item" 0 "1)"]

/-! ## The indexer on a host that never fails -/

theorem scanItems_hostOk (ps : List Paragraph) :
    ∀ (c i : Nat) (st : IndexState),
      scanItems hostOk c i ps st = Outcome.completed (processAll i ps st) := by
  induction ps with
  | nil => intro c i st; rfl
  | cons p ps ih =>
    intro c i st
    simp only [scanItems, hostOk, if_true, processAll, processParagraph]
    split
    · exact ih _ _ _
    · cases hli : p.listItem with
      | none => simp only [ih]
      | some li => simp only [ih]

theorem indexOf_eq (items : List Paragraph) :
    indexOf items = (processAll 0 items initialIndexState).allParagraphsData := by
  simp [indexOf, loadAllParagraphsData, hostOk, scanItems_hostOk, Outcome.state]

theorem processAll_append (a b : List Paragraph) :
    ∀ (i : Nat) (st : IndexState),
      processAll i (a ++ b) st = processAll (i + a.length) b (processAll i a st) := by
  induction a with
  | nil => intro i st; simp [processAll]
  | cons p a ih =>
    intro i st
    have h := ih (i + 1) (processParagraph i p st)
    rw [show i + 1 + a.length = i + (a.length + 1) by omega] at h
    simpa only [List.cons_append, processAll, List.length_cons] using h

theorem processParagraph_records (i : Nat) (p : Paragraph) (st : IndexState) :
    (processParagraph i p st).allParagraphsData =
      st.allParagraphsData ++
        (if (normalizeText p.text).length ≤ 1 then []
         else [{ key := ((processParagraph i p st).allParagraphsData.getLast?.map
                          (fun r => r.key)).getD "",
                 value := normalizeText p.text, originalText := trim p.text,
                 isListItem := p.isListItem }]) := by
  unfold processParagraph
  split
  · simp
  · cases hli : p.listItem with
    | none => simp [pushPlain, Paragraph.isListItem, hli]
    | some li => simp [pushListItem, Paragraph.isListItem, hli]

theorem processAll_prefix (ps : List Paragraph) :
    ∀ (i : Nat) (st : IndexState),
      ∃ recs, (processAll i ps st).allParagraphsData = st.allParagraphsData ++ recs := by
  induction ps with
  | nil => intro i st; exact ⟨[], by simp [processAll]⟩
  | cons p ps ih =>
    intro i st
    obtain ⟨recs, h⟩ := ih (i + 1) (processParagraph i p st)
    rw [processParagraph_records] at h
    exact ⟨_, by simp only [processAll]; rw [h, List.append_assoc]⟩

/-- The content (everything but the key) of the records: one per paragraph whose
normalized text is longer than one character. -/
theorem processAll_content (ps : List Paragraph) :
    ∀ (i : Nat) (st : IndexState),
      (processAll i ps st).allParagraphsData.map
          (fun r => (r.value, r.originalText, r.isListItem)) =
        st.allParagraphsData.map (fun r => (r.value, r.originalText, r.isListItem)) ++
          (ps.filter (fun p => decide (1 < (normalizeText p.text).length))).map
            (fun p => (normalizeText p.text, trim p.text, p.isListItem)) := by
  induction ps with
  | nil => intro i st; simp [processAll]
  | cons p ps ih =>
    intro i st
    simp only [processAll]
    rw [ih, processParagraph_records]
    by_cases h : (normalizeText p.text).length ≤ 1
    · have h2 : ¬ 1 < (normalizeText p.text).length := by omega
      simp [h, h2]
    · have h2 : 1 < (normalizeText p.text).length := by omega
      simp [h, h2]

/-! ## Strings as character lists -/

theorem join_data (sep : String) (l : List String) :
    (join sep l).data = List.intercalate sep.data (l.map String.data) := by
  induction l with
  | nil => simp [join, List.intercalate]
  | cons x rest ih =>
    cases rest with
    | nil => simp [join, List.intercalate]
    | cons y rest =>
      simp only [join, String.data_append, ih]
      simp [List.intercalate, List.intersperse]

theorem flatten_dotted (ms : List (List Char)) (h : ms ≠ []) :
    (ms.map (fun m => m ++ ['.'])).flatten = List.intercalate ['.'] ms ++ ['.'] := by
  induction ms with
  | nil => exact absurd rfl h
  | cons x rest ih =>
    cases rest with
    | nil => simp [List.intercalate]
    | cons y rest =>
      have h2 := ih (by simp)
      simp only [List.map_cons, List.flatten_cons] at h2 ⊢
      rw [h2]
      simp [List.intercalate, List.intersperse]

theorem foldl_appendSlot (markers : List String) (hne : ∀ m ∈ markers, m ≠ "") :
    ∀ n, n ≤ markers.length →
      ((List.range n).foldl (appendSlot (markers.map some)) "").data =
        ((markers.take n).map (fun m => m.data ++ ['.'])).flatten := by
  intro n
  induction n with
  | zero => intro _; simp
  | succ n ih =>
    intro hn
    have hlt : n < markers.length := by omega
    have hm : markers[n] ≠ "" := hne _ (List.getElem_mem hlt)
    rw [List.range_succ, List.foldl_append, List.foldl_cons, List.foldl_nil]
    have hslot : (markers.map some)[n]? = some (some markers[n]) := by
      simp [List.getElem?_eq_getElem hlt]
    simp only [appendSlot, hslot, hm, if_false, String.data_append, ih (by omega)]
    have htake : markers.take (n + 1) = markers.take n ++ [markers[n]] := by
      rw [List.take_succ, List.getElem?_eq_getElem hlt]
      rfl
    rw [htake, List.map_append, List.flatten_append, List.append_assoc]
    simp only [List.map_cons, List.map_nil, List.flatten_cons, List.flatten_nil,
      List.append_nil]

theorem stripTrailingDot_of_data (s : String) (l : List Char) (h : s.data = l ++ ['.']) :
    stripTrailingDot s = ⟨l⟩ := by
  simp [stripTrailingDot, h]

theorem fullNumbering_of_markers (markers : List String) (hne : ∀ m ∈ markers, m ≠ "")
    (level : Nat) (hlen : markers.length = level + 1) :
    fullNumbering (markers.map some) level = join "." markers := by
  have hnil : markers.map String.data ≠ [] := by
    intro h
    have h0 : markers = [] := by simpa using h
    rw [h0] at hlen
    simp at hlen
  have hfold := foldl_appendSlot markers hne (level + 1) (by omega)
  rw [← hlen, List.take_length] at hfold
  have hdot := flatten_dotted (markers.map String.data) hnil
  rw [List.map_map] at hdot
  have hdata : (concatSlots (markers.map some) level).data =
      List.intercalate ['.'] (markers.map String.data) ++ ['.'] := by
    unfold concatSlots
    rw [← hlen, hfold, ← hdot]
    rfl
  rw [fullNumbering, stripTrailingDot_of_data _ _ hdata]
  apply String.ext
  rw [join_data]

theorem adjustNumbering_length (pn : List (Option String)) (level : Nat) (v : String) :
    (adjustNumbering pn level v).length = level + 1 := by
  unfold adjustNumbering assignAt
  split
  · rename_i h
    simp [List.length_take, Nat.min_eq_left h]
  · rename_i h
    have h2 : ¬ level < pn.length := by omega
    simp [h2]
    omega

theorem processAll_lastNumbering_of_no_list (pre : List Paragraph)
    (hpre : ∀ q ∈ pre, q.isListItem = false) :
    ∀ (i : Nat) (st : IndexState), (processAll i pre st).lastNumbering = st.lastNumbering := by
  induction pre with
  | nil => intro i st; rfl
  | cons p pre ih =>
    intro i st
    have hp : p.listItem = none := by
      have := hpre p (List.mem_cons_self _ _)
      simpa [Paragraph.isListItem] using this
    simp only [processAll]
    rw [ih (fun q hq => hpre q (List.mem_cons_of_mem _ hq))]
    unfold processParagraph
    split
    · rfl
    · simp [hp, pushPlain]

theorem indexOf_split (pre post : List Paragraph) (p : Paragraph) :
    ∃ rest, indexOf (pre ++ p :: post) =
      (processParagraph pre.length p (processAll 0 pre initialIndexState)).allParagraphsData
        ++ rest := by
  rw [indexOf_eq, processAll_append]
  simp only [processAll, Nat.zero_add]
  exact processAll_prefix post _ _

/-! ## Claims about the indexer -/

/-- C1: indexing the three-paragraph example document ("1) Intro" a list item of level 0
with marker "1)", "Some body text" not a list item, "a) Sub point" a list item of level 1
with marker "a)") yields exactly three records, with keys "1)", "1).text" and "1).a)" in
that order. -/
theorem example_document_keys :
    (indexOf exampleDocument).length = 3 ∧
      (indexOf exampleDocument).map (fun r => r.key) = ["1)", "1).text", "1).a)"] := by
  decide

/-- C2: the output of the indexer is, in document order, one record per paragraph whose
normalized text is longer than one character, carrying the normalized text as value, the
trimmed text as originalText and the list flag as isListItem; so no record comes from a
paragraph whose normalized text has length at most 1. -/
theorem indexOf_one_record_per_qualifying_paragraph (items : List Paragraph) :
    (indexOf items).map (fun r => (r.value, r.originalText, r.isListItem)) =
      (items.filter (fun p => decide (1 < (normalizeText p.text).length))).map
        (fun p => (normalizeText p.text, trim p.text, p.isListItem)) := by
  rw [indexOf_eq, processAll_content]
  simp [initialIndexState]

/-- C3 (as stated, refuted): a list item at level L that follows a list item at level L
or shallower need not have a key of L + 1 segments.  After an item of level 0 with marker
"1)", an item of level 2 with marker "i)" gets the key "1).i)", of two segments, because
the unset slot 1 is skipped.  Likewise an empty marker at level 1 gives the one-segment
key "1)", and the markers "1." and "a." give the key "1..a.", of four segments. -/
theorem list_item_key_segments_refuted :
    (¬ ∀ (pre post : List Paragraph) (text : String) (li : ListItem),
        1 < (normalizeText text).length →
        (∃ q ∈ pre, ∃ lq, q.listItem = some lq ∧ 1 < (normalizeText q.text).length ∧
          lq.level ≤ li.level) →
        ∃ rest r, indexOf (pre ++ { text := text, listItem := some li } :: post) =
            indexOf pre ++ r :: rest ∧ (segments r.key).length = li.level + 1) ∧
      (indexOf [listParagraph "First item" 0 "1)", listParagraph "Second item" 1 ""]).map
          (fun r => (r.key, (segments r.key).length)) = [("1)", 1), ("1)", 1)] ∧
      (indexOf [listParagraph "First item" 0 "1.", listParagraph "Second item" 1 "a."]).map
          (fun r => (r.key, (segments r.key).length)) = [("1.", 2), ("1..a.", 4)] := by
  refine ⟨?_, by decide, by decide⟩
  intro h
  obtain ⟨rest, r, heq, hseg⟩ :=
    h [listParagraph "First item" 0 "1)"] [] "Deep item" { level := 2, listString := some "i)" }
      (by decide) ⟨listParagraph "First item" 0 "1)", by simp, { level := 0, listString := some "1)" },
        by decide⟩
  have hidx : indexOf ([listParagraph "First item" 0 "1)"] ++
      [{ text := "Deep item", listItem := some { level := 2, listString := some "i)" } }]) =
      indexOf [listParagraph "First item" 0 "1)"] ++
        [{ key := "1).i)", value := "Deep item", originalText := "Deep item",
           isListItem := true }] := by decide
  rw [hidx] at heq
  have hr := (List.cons.inj (List.append_cancel_left heq)).1
  rw [← hr] at hseg
  revert hseg
  decide

/-- C3 (amended): for a list item of level L whose normalized text is longer than one
character, if after the truncate-and-set update the ancestor stack holds non-empty markers
in all of its slots 0..L, the key of the record emitted for the item is those L + 1
markers joined by "."; if moreover no marker contains ".", the dot-separated segments of
the key are exactly those markers, so there are L + 1 of them. -/
theorem list_item_key_of_markers (pre post : List Paragraph) (text : String) (li : ListItem)
    (markers : List String) (hlen : 1 < (normalizeText text).length)
    (hstack : adjustNumbering (stackAfter pre) li.level (li.listString.getD "") =
      markers.map some)
    (hne : ∀ m ∈ markers, m ≠ "") :
    markers.length = li.level + 1 ∧
      (∃ rest, indexOf (pre ++ { text := text, listItem := some li } :: post) =
        indexOf pre ++
          { key := join "." markers, value := normalizeText text, originalText := trim text,
            isListItem := true } :: rest) ∧
      ((∀ m ∈ markers, '.' ∉ m.data) →
        segments (join "." markers) = markers.map String.data ∧
          (segments (join "." markers)).length = li.level + 1) := by
  have hlength : markers.length = li.level + 1 := by
    have := adjustNumbering_length (stackAfter pre) li.level (li.listString.getD "")
    rw [hstack, List.length_map] at this
    exact this
  have hstack2 : adjustNumbering (processAll 0 pre initialIndexState).parentNumbering li.level
      (li.listString.getD "") = markers.map some := by
    rw [← hstack, stackAfter, scanItems_hostOk]
    rfl
  refine ⟨hlength, ?_, ?_⟩
  · obtain ⟨rest, h⟩ := indexOf_split pre post { text := text, listItem := some li }
    refine ⟨rest, ?_⟩
    rw [h, indexOf_eq pre]
    have hnot : ¬ (normalizeText text).length ≤ 1 := by omega
    simp only [processParagraph, hnot, if_false, pushListItem, hstack2,
      fullNumbering_of_markers markers hne li.level hlength]
    simp
  · intro hdot
    have hnil : markers.map String.data ≠ [] := by
      intro h
      have h0 : markers = [] := by simpa using h
      rw [h0] at hlength
      simp at hlength
    have hseg : segments (join "." markers) = markers.map String.data := by
      unfold segments
      rw [join_data]
      exact List.splitOn_intercalate _ '.' (by
        intro l hl
        obtain ⟨m, hm, rfl⟩ := List.mem_map.1 hl
        exact hdot m hm) hnil
    exact ⟨hseg, by rw [hseg, List.length_map, hlength]⟩

theorem list_item_key_of_markers_witness :
    ["1)", "a)"].length = 1 + 1 ∧
      (∃ rest, indexOf ([listParagraph "First item" 0 "1)"] ++
          { text := "Sub point", listItem := some { level := 1, listString := some "a)" } } ::
            [plainParagraph "Closing remark"]) =
        indexOf [listParagraph "First item" 0 "1)"] ++
          { key := join "." ["1)", "a)"], value := normalizeText "Sub point",
            originalText := trim "Sub point", isListItem := true } :: rest) ∧
      ((∀ m ∈ ["1)", "a)"], '.' ∉ m.data) →
        segments (join "." ["1)", "a)"]) = ["1)", "a)"].map String.data ∧
          (segments (join "." ["1)", "a)"])).length = 1 + 1) :=
  list_item_key_of_markers [listParagraph "First item" 0 "1)"] [plainParagraph "Closing remark"]
    "Sub point" { level := 1, listString := some "a)" } ["1)", "a)"] (by decide) (by decide)
    (by decide)

/-- C4: a paragraph that is not a list item, whose normalized text is longer than one
character and that no list item precedes, gets the key "text_n", where n is its 1-based
position among all paragraphs of the document, skipped ones included. -/
theorem plain_paragraph_positional_key (pre post : List Paragraph) (p : Paragraph)
    (hpre : ∀ q ∈ pre, q.isListItem = false) (hp : p.isListItem = false)
    (hlen : 1 < (normalizeText p.text).length) :
    ∃ rest, indexOf (pre ++ p :: post) =
      indexOf pre ++
        { key := "text_" ++ toString (pre.length + 1), value := normalizeText p.text,
          originalText := trim p.text, isListItem := false } :: rest := by
  obtain ⟨rest, h⟩ := indexOf_split pre post p
  refine ⟨rest, ?_⟩
  rw [h, indexOf_eq pre]
  have hnot : ¬ (normalizeText p.text).length ≤ 1 := by omega
  have hnone : p.listItem = none := by simpa [Paragraph.isListItem] using hp
  have hlast : (processAll 0 pre initialIndexState).lastNumbering = "" :=
    processAll_lastNumbering_of_no_list pre hpre 0 initialIndexState
  simp only [processParagraph, hnot, if_false, hnone, pushPlain, hlast, plainKey, if_true]
  simp

theorem plain_paragraph_positional_key_witness :
    ∃ rest, indexOf ([plainParagraph "", plainParagraph "Title line"] ++
        plainParagraph "Some body text" :: [listParagraph "First item" 0 "1)"]) =
      indexOf [plainParagraph "", plainParagraph "Title line"] ++
        { key := "text_" ++ toString ([plainParagraph "", plainParagraph "Title line"].length + 1),
          value := normalizeText (plainParagraph "Some body text").text,
          originalText := trim (plainParagraph "Some body text").text,
          isListItem := false } :: rest :=
  plain_paragraph_positional_key [plainParagraph "", plainParagraph "Title line"]
    [listParagraph "First item" 0 "1)"] (plainParagraph "Some body text") (by decide)
    (by decide) (by decide)

/-! ## Trimming and normalizing -/

theorem trimChars_idempotent (l : List Char) : trimChars (trimChars l) = trimChars l := by
  show List.rdropWhile isWhiteSpace (List.dropWhile isWhiteSpace
      (List.rdropWhile isWhiteSpace (List.dropWhile isWhiteSpace l))) =
    List.rdropWhile isWhiteSpace (List.dropWhile isWhiteSpace l)
  have hdrop : List.dropWhile isWhiteSpace
      (List.rdropWhile isWhiteSpace (List.dropWhile isWhiteSpace l)) =
      List.rdropWhile isWhiteSpace (List.dropWhile isWhiteSpace l) := by
    obtain ⟨r, hr⟩ := List.rdropWhile_prefix (p := isWhiteSpace)
      (l := List.dropWhile isWhiteSpace l)
    cases ht : List.rdropWhile isWhiteSpace (List.dropWhile isWhiteSpace l) with
    | nil => rfl
    | cons a t =>
      rw [ht] at hr
      have hne : List.dropWhile isWhiteSpace l ≠ [] := by
        rw [← hr]; simp
      have hhead := List.head_dropWhile_not isWhiteSpace l hne
      have ha : (List.dropWhile isWhiteSpace l).head hne = a := by
        simp [← hr]
      rw [ha] at hhead
      simp [List.dropWhile_cons, hhead]
  rw [hdrop, List.rdropWhile_idempotent]

theorem trim_idempotent (text : String) : trim (trim text) = trim text := by
  simp [trim, trimChars_idempotent]

theorem normalizeText_trim (text : String) : normalizeText (trim text) = normalizeText text := by
  simp [normalizeText, trim_idempotent]

/-! ## The collector loop -/

theorem foldl_selectParagraph (idx : List ParagraphRecord) (clip : List SelectionEntry)
    (sel : List String) :
    ∀ acc, sel.foldl (selectParagraph idx clip) acc =
      acc ++ sel.flatMap (selectParagraph idx clip []) := by
  induction sel with
  | nil => intro acc; simp
  | cons t sel ih =>
    intro acc
    rw [List.foldl_cons, ih, List.flatMap_cons, ← List.append_assoc]
    congr 1
    unfold selectParagraph
    cases findMatch idx t with
    | none => simp
    | some m => by_cases h : isDuplicate clip m = true <;> simp [h]

theorem collectSelections_eq_flatMap (idx : List ParagraphRecord) (clip : List SelectionEntry)
    (sel : List String) :
    collectSelections idx clip sel = sel.flatMap (selectParagraph idx clip []) := by
  rw [collectSelections, foldl_selectParagraph]
  simp

theorem isDuplicate_iff (clip : List SelectionEntry) (m : ParagraphRecord) :
    isDuplicate clip m = true ↔ ({ key := m.key, value := m.value } : SelectionEntry) ∈ clip := by
  unfold isDuplicate
  rw [List.any_eq_true]
  constructor
  · rintro ⟨item, hmem, h⟩
    simp only [Bool.and_eq_true, beq_iff_eq] at h
    have : item = { key := m.key, value := m.value } := by
      cases item; simp_all
    exact this ▸ hmem
  · intro h
    exact ⟨_, h, by simp⟩

theorem binaryInsert_perm {α : Type} (cmp : α → α → Int) (sorted : List α) (pivot : α) :
    List.Perm (binaryInsert cmp sorted pivot) (pivot :: sorted) := by
  unfold binaryInsert
  refine List.perm_middle.trans ?_
  rw [List.take_append_drop]

theorem binaryInsertionSort_perm {α : Type} (cmp : α → α → Int) (rest : List α) :
    ∀ sorted : List α, List.Perm (binaryInsertionSort cmp sorted rest) (sorted ++ rest) := by
  induction rest with
  | nil => intro sorted; simp [binaryInsertionSort]
  | cons pivot rest ih =>
    intro sorted
    simp only [binaryInsertionSort]
    refine (ih _).trans ?_
    refine ((binaryInsert_perm cmp sorted pivot).append_right rest).trans ?_
    simp only [List.cons_append]
    exact List.perm_middle.symm

theorem arraySort_perm {α : Type} (cmp : α → α → Int) (l : List α) :
    List.Perm (arraySort cmp l) l := by
  match l with
  | [] => exact List.Perm.refl _
  | [x] => exact List.Perm.refl _
  | x0 :: x1 :: rest =>
    simp only [arraySort]
    refine (binaryInsertionSort_perm cmp _ _).trans ?_
    have hsplit := List.take_append_drop (2 + runTail cmp (decide (cmp x1 x0 < 0)) x1 rest)
      (x0 :: x1 :: rest)
    split
    · refine ((List.reverse_perm _).append_right _).trans ?_
      rw [hsplit]
    · rw [hsplit]

theorem sortEntries_perm (lc : String → String → Int) (l : List SelectionEntry) :
    List.Perm (sortEntries lc l) l :=
  arraySort_perm _ l

theorem mem_sortEntries (lc : String → String → Int) (l : List SelectionEntry)
    (e : SelectionEntry) : e ∈ sortEntries lc l ↔ e ∈ l :=
  (sortEntries_perm lc l).mem_iff

theorem clipboardData_subset (lc : String → String → Int) (sel : List String) (s : Session)
    (e : SelectionEntry)
    (h : e ∈ s.clipboardData ∨ e ∈ collectSelections s.allParagraphsData s.clipboardData sel) :
    e ∈ (getListInfoFromSelection lc sel s).clipboardData := by
  unfold getListInfoFromSelection
  by_cases hnew : (collectSelections s.allParagraphsData s.clipboardData sel).length > 0
  · simp only [hnew, if_true, mem_sortEntries, List.mem_append]
    exact h
  · simp only [hnew, if_false]
    have hnil : collectSelections s.allParagraphsData s.clipboardData sel = [] := by
      apply List.eq_nil_of_length_eq_zero
      omega
    rw [hnil] at h
    simpa using h

theorem allParagraphsData_getListInfo (lc : String → String → Int) (sel : List String)
    (s : Session) :
    (getListInfoFromSelection lc sel s).allParagraphsData = s.allParagraphsData := by
  unfold getListInfoFromSelection
  by_cases hnew : (collectSelections s.allParagraphsData s.clipboardData sel).length > 0
  · simp only [hnew, if_true]
  · simp only [hnew, if_false]

theorem getListInfo_of_nil (lc : String → String → Int) (sel : List String) (s : Session)
    (h : collectSelections s.allParagraphsData s.clipboardData sel = []) :
    getListInfoFromSelection lc sel s = s := by
  unfold getListInfoFromSelection
  simp [h]

theorem getListInfo_idempotent (lc : String → String → Int) (sel : List String) (s : Session) :
    getListInfoFromSelection lc sel (getListInfoFromSelection lc sel s) =
      getListInfoFromSelection lc sel s := by
  have hnil : collectSelections (getListInfoFromSelection lc sel s).allParagraphsData
      (getListInfoFromSelection lc sel s).clipboardData sel = [] := by
    rw [allParagraphsData_getListInfo, collectSelections_eq_flatMap, List.flatMap_eq_nil_iff]
    intro t ht
    unfold selectParagraph
    cases hm : findMatch s.allParagraphsData t with
    | none => rfl
    | some m =>
      have hdup : isDuplicate (getListInfoFromSelection lc sel s).clipboardData m = true := by
        rw [isDuplicate_iff]
        apply clipboardData_subset
        by_cases hd : isDuplicate s.clipboardData m = true
        · exact Or.inl ((isDuplicate_iff _ _).1 hd)
        · right
          rw [collectSelections_eq_flatMap, List.mem_flatMap]
          refine ⟨t, ht, ?_⟩
          simp [selectParagraph, hm, hd]
      simp [hdup]
  exact getListInfo_of_nil lc sel _ hnil

theorem findMatch_cases (idx : List ParagraphRecord) (text : String) :
    (∃ l1 r l2, idx = l1 ++ r :: l2 ∧ findMatch idx text = some r ∧
        (r.value = normalizeText text ∨ r.originalText = trim text) ∧
        ∀ x ∈ l1, ¬ (x.value = normalizeText text ∨ x.originalText = trim text)) ∨
      (findMatch idx text = none ∧
        ∀ x ∈ idx, ¬ (x.value = normalizeText text ∨ x.originalText = trim text)) := by
  unfold findMatch
  simp only [normalizeText_trim]
  cases h : idx.find? (matchesSelection (normalizeText text) (trim text)) with
  | none =>
    right
    refine ⟨rfl, ?_⟩
    intro x hx
    have := List.find?_eq_none.1 h x hx
    simpa [matchesSelection] using this
  | some r =>
    left
    obtain ⟨hr, l1, l2, hidx, hl1⟩ := List.find?_eq_some.1 h
    refine ⟨l1, r, l2, hidx, rfl, by simpa [matchesSelection] using hr, ?_⟩
    intro x hx
    have := hl1 x hx
    simpa [matchesSelection] using this

/-! ## Claims about the collector -/

/-- C5: the collector is idempotent per selection: a second pass with the same selection
leaves the session as the first pass left it; and from an empty accumulation, selecting a
matched paragraph and selecting it again yields exactly one entry. -/
theorem collector_idempotent_per_selection (lc : String → String → Int) (sel : List String)
    (s : Session) :
    getListInfoFromSelection lc sel (getListInfoFromSelection lc sel s) =
        getListInfoFromSelection lc sel s ∧
      ∀ (text : String) (r : ParagraphRecord), s.clipboardData = [] →
        findMatch s.allParagraphsData text = some r →
        (getListInfoFromSelection lc [text] s).clipboardData =
            [{ key := r.key, value := r.value }] ∧
          (getListInfoFromSelection lc [text]
              (getListInfoFromSelection lc [text] s)).clipboardData =
            [{ key := r.key, value := r.value }] := by
  refine ⟨getListInfo_idempotent lc sel s, ?_⟩
  intro text r hempty hmatch
  have hfirst : (getListInfoFromSelection lc [text] s).clipboardData =
      [{ key := r.key, value := r.value }] := by
    simp [getListInfoFromSelection, collectSelections, selectParagraph, hmatch, hempty,
      isDuplicate, sortEntries, arraySort]
  exact ⟨hfirst, by rw [getListInfo_idempotent]; exact hfirst⟩

theorem collector_idempotent_per_selection_witness :
    (getListInfoFromSelection codepointCompare ["Some body text"] exampleSession).clipboardData =
        [{ key := "1).text", value := "Some body text" }] ∧
      (getListInfoFromSelection codepointCompare ["Some body text"]
          (getListInfoFromSelection codepointCompare ["Some body text"]
            exampleSession)).clipboardData =
        [{ key := "1).text", value := "Some body text" }] :=
  (collector_idempotent_per_selection codepointCompare ["Some body text"] exampleSession).2
    "Some body text"
    { key := "1).text", value := "Some body text", originalText := "Some body text",
      isListItem := false }
    (by decide) (by decide)

/-- C6 (as stated, refuted): in a document that holds the line "Not applicable" twice,
selecting both paragraphs in one pass from the empty accumulation stores the pair
("text_1", "Not applicable") twice, because each candidate is checked against the
accumulation as it was before the pass; the accumulation has a repeated entry. -/
theorem repeated_line_accumulates_twice :
    (runActions codepointCompare
        { clipboardData := [], allParagraphsData := indexOf repeatedLineDocument }
        [Action.collect ["Not applicable", "Not applicable"]]).clipboardData =
        [{ key := "text_1", value := "Not applicable" },
         { key := "text_1", value := "Not applicable" }] ∧
      ¬ (runActions codepointCompare
        { clipboardData := [], allParagraphsData := indexOf repeatedLineDocument }
        [Action.collect ["Not applicable", "Not applicable"]]).clipboardData.Nodup := by
  decide

theorem not_mem_of_mem_collectSelections (idx : List ParagraphRecord)
    (clip : List SelectionEntry) (sel : List String) (e : SelectionEntry)
    (he : e ∈ collectSelections idx clip sel) : e ∉ clip := by
  rw [collectSelections_eq_flatMap, List.mem_flatMap] at he
  obtain ⟨t, _, hmem⟩ := he
  unfold selectParagraph at hmem
  cases hm : findMatch idx t with
  | none => simp [hm] at hmem
  | some r =>
    rw [hm] at hmem
    by_cases hd : isDuplicate clip r = true
    · simp [hd] at hmem
    · simp [hd] at hmem
      rw [hmem]
      exact fun h => hd ((isDuplicate_iff clip r).2 h)

theorem getListInfo_nodup (lc : String → String → Int) (sel : List String) (s : Session)
    (hs : s.clipboardData.Nodup)
    (hc : (collectSelections s.allParagraphsData s.clipboardData sel).Nodup) :
    (getListInfoFromSelection lc sel s).clipboardData.Nodup := by
  unfold getListInfoFromSelection
  by_cases hnew : (collectSelections s.allParagraphsData s.clipboardData sel).length > 0
  · simp only [hnew, if_true]
    rw [(sortEntries_perm lc _).nodup_iff, List.nodup_append]
    refine ⟨hs, hc, ?_⟩
    intro e he hcand
    exact not_mem_of_mem_collectSelections _ _ _ e hcand he
  · simp only [hnew, if_false]
    exact hs

theorem runActions_nodup (lc : String → String → Int) (actions : List Action) :
    ∀ s : Session, s.clipboardData.Nodup → noRepeatedCandidates lc s actions = true →
      (runActions lc s actions).clipboardData.Nodup := by
  induction actions with
  | nil => intro s hs _; exact hs
  | cons a rest ih =>
    intro s hs hno
    cases a with
    | collect selection =>
      simp only [noRepeatedCandidates, Bool.and_eq_true, decide_eq_true_eq] at hno
      exact ih _ (getListInfo_nodup lc selection s hs hno.1) hno.2
    | clear =>
      simp only [noRepeatedCandidates] at hno
      exact ih _ List.nodup_nil hno

/-- C6 (amended): in every session state reached from the empty accumulation by a
sequence of clear actions and collector passes none of which has two surviving
candidates with the same key and value, the accumulation holds at most one entry per
distinct pair of key and value. -/
theorem accumulation_has_no_repeated_entry (lc : String → String → Int)
    (allParagraphsData : List ParagraphRecord) (actions : List Action)
    (hno : noRepeatedCandidates lc
      { clipboardData := [], allParagraphsData := allParagraphsData } actions = true) :
    (runActions lc { clipboardData := [], allParagraphsData := allParagraphsData }
      actions).clipboardData.Nodup :=
  runActions_nodup lc actions _ List.nodup_nil hno

theorem accumulation_has_no_repeated_entry_witness :
    (runActions codepointCompare
      { clipboardData := [], allParagraphsData := indexOf exampleDocument }
      [Action.collect ["Some body text", "a) Sub point"], Action.collect ["Some body text"],
       Action.clear, Action.collect ["1) Intro", "Some body text"]]).clipboardData.Nodup :=
  accumulation_has_no_repeated_entry codepointCompare (indexOf exampleDocument)
    [Action.collect ["Some body text", "a) Sub point"], Action.collect ["Some body text"],
     Action.clear, Action.collect ["1) Intro", "Some body text"]] (by decide)

/-- C7: the candidates of a pass are those of the selected paragraphs, in selection
order.  A selected paragraph uses the first record of the index whose value equals the
normalized selected text or whose originalText equals the trimmed selected text (its
candidate is that record's key and value, dropped when already accumulated); when no
record satisfies either test it contributes no candidate, and selecting it alone leaves
the session as it was. -/
theorem selected_paragraph_uses_first_match (lc : String → String → Int) (s : Session)
    (before after : List String) (text : String) :
    collectSelections s.allParagraphsData s.clipboardData (before ++ text :: after) =
        collectSelections s.allParagraphsData s.clipboardData before ++
          collectSelections s.allParagraphsData s.clipboardData [text] ++
          collectSelections s.allParagraphsData s.clipboardData after ∧
      ((∃ l1 r l2, s.allParagraphsData = l1 ++ r :: l2 ∧
          (r.value = normalizeText text ∨ r.originalText = trim text) ∧
          (∀ x ∈ l1, ¬ (x.value = normalizeText text ∨ x.originalText = trim text)) ∧
          collectSelections s.allParagraphsData s.clipboardData [text] =
            if ({ key := r.key, value := r.value } : SelectionEntry) ∈ s.clipboardData then []
            else [{ key := r.key, value := r.value }]) ∨
        ((∀ x ∈ s.allParagraphsData,
            ¬ (x.value = normalizeText text ∨ x.originalText = trim text)) ∧
          collectSelections s.allParagraphsData s.clipboardData [text] = [] ∧
          getListInfoFromSelection lc [text] s = s)) := by
  constructor
  · simp [collectSelections_eq_flatMap]
  · rcases findMatch_cases s.allParagraphsData text with
      ⟨l1, r, l2, hidx, hfind, hr, hl1⟩ | ⟨hfind, hall⟩
    · left
      refine ⟨l1, r, l2, hidx, hr, hl1, ?_⟩
      by_cases hd : isDuplicate s.clipboardData r = true
      · have hmem := (isDuplicate_iff _ _).1 hd
        simp [collectSelections, selectParagraph, hfind, hd, hmem]
      · have hmem : ¬ ({ key := r.key, value := r.value } : SelectionEntry) ∈ s.clipboardData :=
          fun h => hd ((isDuplicate_iff _ _).2 h)
        simp [collectSelections, selectParagraph, hfind, hd, hmem]
    · right
      have hnil : collectSelections s.allParagraphsData s.clipboardData [text] = [] := by
        simp [collectSelections, selectParagraph, hfind]
      exact ⟨hall, hnil, getListInfo_of_nil lc [text] s hnil⟩

/-- C8: the serialized text of an accumulation is the two characters of "{" and a line
feed, then the entries in accumulation order, each rendered as a quote, the key, the four
characters quote, colon, space, quote, the value and a quote, joined by a comma and a
line feed, then a line feed and "}"; the characters of keys and values are copied
unchanged. -/
theorem formatClipboardData_chars (clipboardData : List SelectionEntry) :
    (formatClipboardData clipboardData).data =
      ['\x7b', '\n'] ++
        List.intercalate [',', '\n']
          (clipboardData.map (fun pair =>
            ['"'] ++ pair.key.data ++ ['"', ':', ' ', '"'] ++ pair.value.data ++ ['"'])) ++
        ['\n', '\x7d'] := by
  unfold formatClipboardData
  rw [String.data_append, String.data_append, join_data, List.map_map]
  rfl

/-- C9: from every session the clear action leaves the accumulation empty (and the index
as it was), and serializing the accumulation right afterwards gives the empty-object
form: "{", two line feeds, "}". -/
theorem clear_then_serialize (s : Session) :
    (clearCopiedContent s).clipboardData = [] ∧
      (clearCopiedContent s).allParagraphsData = s.allParagraphsData ∧
      formatClipboardData (clearCopiedContent s).clipboardData = "\x7b\n\n\x7d" := by
  refine ⟨rfl, rfl, ?_⟩
  show formatClipboardData [] = "\x7b\n\n\x7d"
  decide

/-! ## Host failures during the indexing pass -/

theorem scanItems_lift (o : Outcome) (i : Nat) (p : Paragraph) (ps : List Paragraph)
    (st : IndexState) (ho : o.AgreesWith (i + 1) ps (processParagraph i p st)) :
    o.AgreesWith i (p :: ps) st := by
  cases o with
  | completed st1 => exact ho
  | aborted k st1 =>
    obtain ⟨hk, h⟩ := ho
    refine ⟨by omega, ?_⟩
    have hki : k - i = (k - (i + 1)) + 1 := by omega
    rw [hki, List.take_succ_cons]
    exact h

theorem scanItems_spec (sync : Nat → Bool) (ps : List Paragraph) :
    ∀ (c i : Nat) (st : IndexState), (scanItems sync c i ps st).AgreesWith i ps st := by
  induction ps with
  | nil => intro c i st; simp [scanItems, processAll, Outcome.AgreesWith]
  | cons p ps ih =>
    intro c i st
    unfold scanItems
    by_cases hs : sync c = true
    · simp only [hs, if_true]
      by_cases hl : (normalizeText p.text).length ≤ 1
      · simp only [hl, if_true]
        apply scanItems_lift
        have := ih (c + 1) (i + 1) st
        simpa [processParagraph, hl] using this
      · simp only [hl, if_false]
        cases hli : p.listItem with
        | none =>
          simp only []
          apply scanItems_lift
          have := ih (c + 1) (i + 1) (pushPlain i (normalizeText p.text) (trim p.text) st)
          simpa [processParagraph, hl, hli] using this
        | some li =>
          simp only []
          by_cases hs2 : sync (c + 1) = true
          · simp only [hs2, if_true]
            apply scanItems_lift
            have := ih (c + 2) (i + 1)
              (pushListItem li (normalizeText p.text) (trim p.text) st)
            simpa [processParagraph, hl, hli] using this
          · simp [hs2, processAll, Outcome.AgreesWith]
    · simp [hs, processAll, Outcome.AgreesWith]

/-- Lemma: the index after a pass, read off the outcome of the scan. -/
theorem index_after_pass (sync : Nat → Bool) (items : List Paragraph) (s : Session) :
    (loadAllParagraphsData sync items s).clipboardData = s.clipboardData ∧
      (loadAllParagraphsData sync items s).allParagraphsData =
        if sync 0 = true then
          match scanItems sync 1 0 items initialIndexState with
          | Outcome.completed _ => indexOf items
          | Outcome.aborted i _ => indexOf (items.take i)
        else s.allParagraphsData := by
  constructor
  · unfold loadAllParagraphsData
    by_cases hs : sync 0 = true <;> simp [hs]
  · unfold loadAllParagraphsData
    by_cases hs : sync 0 = true
    · simp only [hs, if_true]
      have hspec := scanItems_spec sync items 1 0 initialIndexState
      cases ho : scanItems sync 1 0 items initialIndexState with
      | completed st1 =>
        rw [ho] at hspec
        simp only [Outcome.state]
        rw [indexOf_eq, show st1 = _ from hspec]
      | aborted k st1 =>
        rw [ho] at hspec
        simp only [Outcome.state]
        rw [indexOf_eq, show st1 = _ from hspec.2, Nat.sub_zero]
    · simp [hs]

theorem hostReads_of_skipped (p : Paragraph) (h : (normalizeText p.text).length ≤ 1) :
    hostReads p = 1 := by
  have h2 : ¬ 1 < (normalizeText p.text).length := by omega
  simp [hostReads, h2]

theorem hostReads_of_plain (p : Paragraph) (h : p.listItem = none) : hostReads p = 1 := by
  simp [hostReads, Paragraph.isListItem, h]

theorem hostReads_of_list (p : Paragraph) (li : ListItem)
    (hlen : ¬ (normalizeText p.text).length ≤ 1) (h : p.listItem = some li) :
    hostReads p = 2 := by
  have h2 : 1 < (normalizeText p.text).length := by omega
  simp [hostReads, Paragraph.isListItem, h, h2]

/-- The scan stops exactly at the paragraph one of whose host reads is the first to
fail, with the records of the paragraphs before it. -/
theorem scanItems_eq (sync : Nat → Bool) (ps : List Paragraph) :
    ∀ (c i : Nat) (st : IndexState),
      scanItems sync c i ps st =
        match failingParagraph sync c ps with
        | none => Outcome.completed (processAll i ps st)
        | some k => Outcome.aborted (i + k) (processAll i (ps.take k) st) := by
  induction ps with
  | nil => intro c i st; rfl
  | cons p ps ih =>
    intro c i st
    unfold scanItems failingParagraph
    by_cases hs : sync c = true
    · simp only [hs, if_true]
      by_cases hl : (normalizeText p.text).length ≤ 1
      · simp only [hl, if_true, hostReads_of_skipped p hl]
        have hall : (List.range 1).all (fun k => sync (c + k)) = true := by
          simp [hs]
        rw [if_pos hall, ih (c + 1) (i + 1) st]
        cases failingParagraph sync (c + 1) ps with
        | none => simp [processAll, processParagraph, hl]
        | some k =>
          simp only [Option.map_some', List.take_succ_cons, processAll, processParagraph, hl,
            if_true]
          rw [show i + 1 + k = i + (k + 1) by omega]
      · simp only [hl, if_false]
        cases hli : p.listItem with
        | none =>
          simp only [hostReads_of_plain p hli]
          have hall : (List.range 1).all (fun k => sync (c + k)) = true := by
            simp [hs]
          rw [if_pos hall, ih (c + 1) (i + 1)]
          cases failingParagraph sync (c + 1) ps with
          | none => simp [processAll, processParagraph, hl, hli]
          | some k =>
            simp only [Option.map_some', List.take_succ_cons, processAll, processParagraph,
              hl, hli, if_false]
            rw [show i + 1 + k = i + (k + 1) by omega]
        | some li =>
          simp only [hostReads_of_list p li hl hli]
          by_cases hs2 : sync (c + 1) = true
          · have hall : (List.range 2).all (fun k => sync (c + k)) = true := by
              simp [List.range_succ, hs, hs2]
            simp only [hs2, if_true]
            rw [if_pos hall, ih (c + 2) (i + 1)]
            cases failingParagraph sync (c + 2) ps with
            | none => simp [processAll, processParagraph, hl, hli]
            | some k =>
              simp only [Option.map_some', List.take_succ_cons, processAll, processParagraph,
                hl, hli, if_false]
              rw [show i + 1 + k = i + (k + 1) by omega]
          · have hall : ¬ (List.range 2).all (fun k => sync (c + k)) = true := by
              simp [List.range_succ, hs, hs2]
            simp only [hs2]
            rw [if_neg hall]
            simp [processAll]
    · have hall : ¬ (List.range (hostReads p)).all (fun k => sync (c + k)) = true := by
        have hpos : 0 < hostReads p := by
          unfold hostReads
          split <;> omega
        intro hcontra
        rw [List.all_eq_true] at hcontra
        have := hcontra 0 (List.mem_range.2 hpos)
        simp at this
        exact hs this
      simp only [hs]
      rw [if_neg hall]
      simp [processAll]

/-- C10 (as stated, refuted): a host read that fails during the scan does publish a
partial index.  With the index of the example document loaded, a pass over two paragraphs
on which the read of the second paragraph throws ends with the index holding the record
of the first paragraph, not the index held before the pass. -/
theorem failed_pass_keeps_previous_index_refuted :
    ¬ ∀ (sync : Nat → Bool) (items : List Paragraph) (s : Session),
        (sync 0 = false ∨ (failingParagraph sync 1 items).isSome = true) →
        (loadAllParagraphsData sync items s).allParagraphsData = s.allParagraphsData := by
  intro h
  have h1 := h hostFailingAtSecondRead repeatedLineDocument exampleSession
    (Or.inr (by decide))
  revert h1
  decide

/-- C10 (amended): an indexing pass never touches the accumulation.  When the host read
that loads the paragraph collection (read 0) fails, the index stays the one held before
the pass.  Otherwise, with the reads numbered in the order the scan needs them, when the
first read to fail belongs to paragraph i the previous index is gone and the visible index
is exactly the index of the first i paragraphs; when no read fails it is the index of the
whole document. -/
theorem index_after_failed_read (sync : Nat → Bool) (items : List Paragraph) (s : Session) :
    (loadAllParagraphsData sync items s).clipboardData = s.clipboardData ∧
      (loadAllParagraphsData sync items s).allParagraphsData =
        if sync 0 = true then
          match failingParagraph sync 1 items with
          | none => indexOf items
          | some i => indexOf (items.take i)
        else s.allParagraphsData := by
  constructor
  · unfold loadAllParagraphsData
    by_cases hs : sync 0 = true <;> simp [hs]
  · unfold loadAllParagraphsData
    by_cases hs : sync 0 = true
    · simp only [hs, if_true]
      rw [scanItems_eq]
      cases failingParagraph sync 1 items with
      | none => simp only [Outcome.state]; rw [indexOf_eq]
      | some k => simp only [Outcome.state]; rw [indexOf_eq]
    · simp [hs]

/-! ## Sorting the accumulation -/

theorem compareEntries_of_digits (lc : String → String → Int) (a b : SelectionEntry)
    (x y : List Char) (ha : firstDigitRun a.key = some x) (hb : firstDigitRun b.key = some y) :
    compareEntries lc a b = parseInt x - parseInt y := by
  simp [compareEntries, ha, hb]

theorem compareEntries_eq_keyNumber (lc : String → String → Int) (a b : SelectionEntry)
    (ha : firstDigitRun a.key ≠ none) (hb : firstDigitRun b.key ≠ none) :
    compareEntries lc a b = keyNumber a.key - keyNumber b.key := by
  cases hx : firstDigitRun a.key with
  | none => exact absurd hx ha
  | some x =>
    cases hy : firstDigitRun b.key with
    | none => exact absurd hy hb
    | some y => simp [compareEntries, keyNumber, hx, hy]

theorem getListInfo_of_ne_nil (lc : String → String → Int) (sel : List String) (s : Session)
    (h : collectSelections s.allParagraphsData s.clipboardData sel ≠ []) :
    (getListInfoFromSelection lc sel s).clipboardData =
      sortEntries lc (s.clipboardData ++
        collectSelections s.allParagraphsData s.clipboardData sel) := by
  unfold getListInfoFromSelection
  have hpos : (collectSelections s.allParagraphsData s.clipboardData sel).length > 0 :=
    List.length_pos.2 h
  simp only [hpos, if_true]

/-- C19: a collector pass neither loses nor alters accumulated entries: the new
accumulation is a permutation of the old accumulation followed by the surviving
candidates, its length is the old length plus the number of surviving candidates, the
index is untouched, and when no candidate survives the session is the old one. -/
theorem pass_keeps_accumulated_entries (lc : String → String → Int) (sel : List String)
    (s : Session) :
    List.Perm (getListInfoFromSelection lc sel s).clipboardData
        (s.clipboardData ++ collectSelections s.allParagraphsData s.clipboardData sel) ∧
      (getListInfoFromSelection lc sel s).clipboardData.length =
        s.clipboardData.length +
          (collectSelections s.allParagraphsData s.clipboardData sel).length ∧
      (getListInfoFromSelection lc sel s).allParagraphsData = s.allParagraphsData ∧
      (collectSelections s.allParagraphsData s.clipboardData sel = [] →
        getListInfoFromSelection lc sel s = s) := by
  have hperm : List.Perm (getListInfoFromSelection lc sel s).clipboardData
      (s.clipboardData ++ collectSelections s.allParagraphsData s.clipboardData sel) := by
    by_cases h : collectSelections s.allParagraphsData s.clipboardData sel = []
    · rw [getListInfo_of_nil lc sel s h, h, List.append_nil]
    · rw [getListInfo_of_ne_nil lc sel s h]
      exact sortEntries_perm _ _
  refine ⟨hperm, ?_, allParagraphsData_getListInfo lc sel s, getListInfo_of_nil lc sel s⟩
  rw [hperm.length_eq, List.length_append]

theorem pass_keeps_accumulated_entries_witness :
    getListInfoFromSelection codepointCompare ["No such paragraph"] exampleSession =
      exampleSession :=
  (pass_keeps_accumulated_entries codepointCompare ["No such paragraph"] exampleSession).2.2.2
    (by decide)

/-! ## The key of a list item -/

theorem truthyEntries_append (a b : List (Option String)) :
    truthyEntries (a ++ b) = truthyEntries a ++ truthyEntries b := by
  simp [truthyEntries]

theorem appendSlot_data (pn : List (Option String)) (acc : String) (n : Nat) :
    (appendSlot pn acc n).data =
      acc.data ++ ((truthyEntries pn[n]?.toList).map (fun m => m.data ++ ['.'])).flatten := by
  unfold appendSlot
  cases hslot : pn[n]? with
  | none => simp [truthyEntries]
  | some o =>
    cases o with
    | none => simp [truthyEntries]
    | some m =>
      by_cases hm : m = ""
      · simp [truthyEntries, hm]
      · simp [truthyEntries, hm]

theorem foldl_appendSlot_truthy (pn : List (Option String)) :
    ∀ n, ((List.range n).foldl (appendSlot pn) "").data =
      ((truthyEntries (pn.take n)).map (fun m => m.data ++ ['.'])).flatten := by
  intro n
  induction n with
  | zero => simp [truthyEntries]
  | succ n ih =>
    rw [List.range_succ, List.foldl_append, List.foldl_cons, List.foldl_nil, List.take_succ,
      appendSlot_data, ih, truthyEntries_append, List.map_append, List.flatten_append]

theorem fullNumbering_eq_join (pn : List (Option String)) (level : Nat) :
    fullNumbering pn level = join "." (truthySlots pn level) := by
  have hdata : (concatSlots pn level).data =
      ((truthySlots pn level).map (fun m => m.data ++ ['.'])).flatten :=
    foldl_appendSlot_truthy pn (level + 1)
  by_cases hnil : truthySlots pn level = []
  · rw [hnil] at hdata ⊢
    have hempty : concatSlots pn level = "" := String.ext (by simpa using hdata)
    simp [fullNumbering, hempty, stripTrailingDot, join]
  · have hne : (truthySlots pn level).map String.data ≠ [] := by
      simpa using hnil
    have hdot := flatten_dotted ((truthySlots pn level).map String.data) hne
    rw [List.map_map] at hdot
    have hdata2 : (concatSlots pn level).data =
        List.intercalate ['.'] ((truthySlots pn level).map String.data) ++ ['.'] := by
      rw [hdata, ← hdot]
      rfl
    rw [fullNumbering, stripTrailingDot_of_data _ _ hdata2]
    apply String.ext
    rw [join_data]

theorem stackAfter_eq (pre : List Paragraph) :
    stackAfter pre = (processAll 0 pre initialIndexState).parentNumbering := by
  rw [stackAfter, scanItems_hostOk]
  rfl

theorem indexOf_list_item (pre post : List Paragraph) (text : String) (li : ListItem)
    (hlen : 1 < (normalizeText text).length) :
    ∃ rest, indexOf (pre ++ { text := text, listItem := some li } :: post) =
      indexOf pre ++
        { key := fullNumbering
            (adjustNumbering (stackAfter pre) li.level (li.listString.getD "")) li.level,
          value := normalizeText text, originalText := trim text, isListItem := true } ::
          rest := by
  obtain ⟨rest, h⟩ := indexOf_split pre post { text := text, listItem := some li }
  refine ⟨rest, ?_⟩
  rw [h, indexOf_eq pre, stackAfter_eq]
  have hnot : ¬ (normalizeText text).length ≤ 1 := by omega
  simp only [processParagraph, hnot, if_false, pushListItem]
  simp

/-- C17: the key emitted for a list item of level L is the non-empty markers held in
ancestor-stack slots 0..L after the truncate-and-set update, in depth order, joined by a
single "." (the empty string when there are none): unset and empty slots contribute
nothing, and the characters of each marker, a trailing "." included, are kept. -/
theorem list_item_key_joins_truthy_slots (pre post : List Paragraph) (text : String)
    (li : ListItem) (hlen : 1 < (normalizeText text).length) :
    ∃ rest, indexOf (pre ++ { text := text, listItem := some li } :: post) =
      indexOf pre ++
        { key := join "."
            (truthySlots (adjustNumbering (stackAfter pre) li.level (li.listString.getD ""))
              li.level),
          value := normalizeText text, originalText := trim text, isListItem := true } ::
          rest := by
  obtain ⟨rest, h⟩ := indexOf_list_item pre post text li hlen
  exact ⟨rest, by rw [h, fullNumbering_eq_join]⟩

theorem list_item_key_joins_truthy_slots_witness :
    ∃ rest, indexOf ([listParagraph "First item" 0 "1.", listParagraph "Deep item" 2 ""] ++
        { text := "Deeper item", listItem := some { level := 3, listString := some "a." } } ::
          [plainParagraph "Closing remark"]) =
      indexOf [listParagraph "First item" 0 "1.", listParagraph "Deep item" 2 ""] ++
        { key := join "."
            (truthySlots (adjustNumbering
              (stackAfter [listParagraph "First item" 0 "1.", listParagraph "Deep item" 2 ""])
              ({ level := 3, listString := some "a." } : ListItem).level
              (({ level := 3, listString := some "a." } : ListItem).listString.getD ""))
              ({ level := 3, listString := some "a." } : ListItem).level),
          value := normalizeText "Deeper item", originalText := trim "Deeper item",
          isListItem := true } :: rest :=
  list_item_key_joins_truthy_slots
    [listParagraph "First item" 0 "1.", listParagraph "Deep item" 2 ""]
    [plainParagraph "Closing remark"] "Deeper item" { level := 3, listString := some "a." }
    (by decide)

theorem intercalate_append_singleton (sep x : List Char) (l : List (List Char))
    (h : l ≠ []) :
    List.intercalate sep (l ++ [x]) = List.intercalate sep l ++ sep ++ x := by
  induction l with
  | nil => exact absurd rfl h
  | cons a rest ih =>
    cases rest with
    | nil => simp [List.intercalate, List.intersperse]
    | cons b rest =>
      have h2 := ih (by simp)
      simp only [List.intercalate, List.cons_append, List.intersperse, List.flatten_cons,
        List.append_assoc] at h2 ⊢
      exact congrArg (fun t => a ++ (sep ++ t)) h2

theorem stripTrailingDot_join_empty_last (D : List String) :
    stripTrailingDot (join "." (D ++ [""])) = join "." D := by
  by_cases hD : D = []
  · subst hD
    decide
  · have hne : D.map String.data ≠ [] := by simpa using hD
    have hdata : (join "." (D ++ [""])).data =
        List.intercalate ['.'] (D.map String.data) ++ ['.'] := by
      rw [join_data, List.map_append]
      have := intercalate_append_singleton ['.'] [] (D.map String.data) hne
      simpa using this
    rw [stripTrailingDot_of_data _ _ hdata]
    apply String.ext
    rw [join_data]

theorem adjustNumbering_eq (pn : List (Option String)) (level : Nat) (v : String) :
    ∃ q : List (Option String), q.length = level ∧ adjustNumbering pn level v = q ++ [some v] := by
  unfold adjustNumbering assignAt
  by_cases h : level ≤ pn.length
  · refine ⟨pn.take level, by simp [h], ?_⟩
    simp [h, List.length_take, Nat.min_eq_left h]
  · have h2 : ¬ level < pn.length := by omega
    refine ⟨pn ++ List.replicate (level - pn.length) none, by simp; omega, ?_⟩
    simp only [h, h2, if_false]

theorem adjustNumbering_take (pn : List (Option String)) (level : Nat) (v : String) :
    (adjustNumbering pn level v).take (level + 1) =
      (adjustNumbering pn level v).take level ++ [some v] := by
  obtain ⟨q, hq, h⟩ := adjustNumbering_eq pn level v
  rw [h]
  subst hq
  simp

theorem fullNumbering_eq_specifiedKey (pn : List (Option String)) (level : Nat) (v : String)
    (hbelow : ∀ j, j < level → (adjustNumbering pn level v)[j]? ≠ some (some "")) :
    fullNumbering (adjustNumbering pn level v) level =
      specifiedKey (adjustNumbering pn level v) level := by
  have hD : ∀ m ∈ ((adjustNumbering pn level v).take level).filterMap id, m ≠ "" := by
    intro m hm hempty
    obtain ⟨o, ho, hid⟩ := List.mem_filterMap.1 hm
    obtain ⟨j, hj⟩ := List.mem_iff_getElem?.1 ho
    rw [List.getElem?_take] at hj
    by_cases hlt : j < level
    · rw [if_pos hlt] at hj
      apply hbelow j hlt
      rw [hj]
      simp only [id] at hid
      rw [hid, hempty]
    · rw [if_neg hlt] at hj
      exact absurd hj (by simp)
  have hfilter : truthyEntries ((adjustNumbering pn level v).take level) =
      ((adjustNumbering pn level v).take level).filterMap id := by
    unfold truthyEntries
    rw [List.filter_eq_self]
    intro m hm
    simpa using hD m hm
  have hdefined : definedSlots (adjustNumbering pn level v) level =
      ((adjustNumbering pn level v).take level).filterMap id ++ [v] := by
    unfold definedSlots
    rw [adjustNumbering_take, List.filterMap_append]
    rfl
  have htruthy : truthySlots (adjustNumbering pn level v) level =
      ((adjustNumbering pn level v).take level).filterMap id ++ truthyEntries [some v] := by
    unfold truthySlots
    rw [adjustNumbering_take, truthyEntries_append, hfilter]
  rw [fullNumbering_eq_join, htruthy]
  unfold specifiedKey
  rw [hdefined, List.getLast?_concat]
  by_cases hv : v = ""
  · subst hv
    simp only [if_true]
    rw [stripTrailingDot_join_empty_last]
    simp [truthyEntries]
  · have hne : ¬ (some v = some "") := by simpa using hv
    rw [if_neg hne]
    simp [truthyEntries, hv]

/-- C12 (as stated, refuted): the key of a list item is not always the join of every
defined stack entry.  After a level-0 item whose marker is empty, the level-1 item with
marker "a)" gets the key "a)", while joining the defined entries "" and "a)" with "."
gives ".a)". -/
theorem list_item_key_specified_refuted :
    ¬ ∀ (pre post : List Paragraph) (text : String) (li : ListItem),
        1 < (normalizeText text).length →
        ∃ rest, indexOf (pre ++ { text := text, listItem := some li } :: post) =
          indexOf pre ++
            { key := specifiedKey
                (adjustNumbering (stackAfter pre) li.level (li.listString.getD "")) li.level,
              value := normalizeText text, originalText := trim text, isListItem := true } ::
              rest := by
  intro h
  obtain ⟨rest, heq⟩ := h [listParagraph "Bullet item" 0 ""] [] "Sub point"
    { level := 1, listString := some "a)" } (by decide)
  have hidx : indexOf ([listParagraph "Bullet item" 0 ""] ++
      [{ text := "Sub point", listItem := some { level := 1, listString := some "a)" } }]) =
      indexOf [listParagraph "Bullet item" 0 ""] ++
        [{ key := "a)", value := "Sub point", originalText := "Sub point",
           isListItem := true }] := by decide
  rw [hidx] at heq
  have hr := (List.cons.inj (List.append_cancel_left heq)).1
  have hkey := congrArg ParagraphRecord.key hr
  revert hkey
  decide

/-- C12 (amended): for a list item of level L whose normalized text is longer than one
character, if after the truncate-and-set update no ancestor-stack entry below index L is
the empty string, the key equals the result of joining with "." every defined stack entry
at indices 0 through L and then stripping a trailing "." if the last entry was empty. -/
theorem list_item_key_specified (pre post : List Paragraph) (text : String) (li : ListItem)
    (hlen : 1 < (normalizeText text).length)
    (hbelow : ∀ j, j < li.level →
      (adjustNumbering (stackAfter pre) li.level (li.listString.getD ""))[j]? ≠
        some (some "")) :
    ∃ rest, indexOf (pre ++ { text := text, listItem := some li } :: post) =
      indexOf pre ++
        { key := specifiedKey
            (adjustNumbering (stackAfter pre) li.level (li.listString.getD "")) li.level,
          value := normalizeText text, originalText := trim text, isListItem := true } ::
          rest := by
  obtain ⟨rest, h⟩ := indexOf_list_item pre post text li hlen
  exact ⟨rest, by rw [h, fullNumbering_eq_specifiedKey _ _ _ hbelow]⟩

theorem list_item_key_specified_witness :
    ∃ rest, indexOf ([listParagraph "First item" 0 "1)"] ++
        { text := "Unnumbered item", listItem := some { level := 1, listString := none } } ::
          [plainParagraph "Closing remark"]) =
      indexOf [listParagraph "First item" 0 "1)"] ++
        { key := specifiedKey
            (adjustNumbering (stackAfter [listParagraph "First item" 0 "1)"])
              ({ level := 1, listString := none } : ListItem).level
              (({ level := 1, listString := none } : ListItem).listString.getD ""))
            ({ level := 1, listString := none } : ListItem).level,
          value := normalizeText "Unnumbered item", originalText := trim "Unnumbered item",
          isListItem := true } :: rest :=
  list_item_key_specified [listParagraph "First item" 0 "1)"] [plainParagraph "Closing remark"]
    "Unnumbered item" { level := 1, listString := none } (by decide)
    (by
      intro j hj
      have hj0 : j = 0 := by
        have : j < 1 := hj
        omega
      subst hj0
      decide)

/-! ## The key of a paragraph that is not a list item -/

theorem lastListKey_append_list (records : List ParagraphRecord) (r : ParagraphRecord)
    (h : r.isListItem = true) : lastListKey (records ++ [r]) = r.key := by
  simp [lastListKey, List.filter_append, h]

theorem lastListKey_append_plain (records : List ParagraphRecord) (r : ParagraphRecord)
    (h : r.isListItem = false) : lastListKey (records ++ [r]) = lastListKey records := by
  simp [lastListKey, List.filter_append, h]

theorem processParagraph_lastNumbering (i : Nat) (p : Paragraph) (st : IndexState)
    (h : st.lastNumbering = lastListKey st.allParagraphsData) :
    (processParagraph i p st).lastNumbering =
      lastListKey (processParagraph i p st).allParagraphsData := by
  unfold processParagraph
  split
  · exact h
  · cases hli : p.listItem with
    | none =>
      simp only [pushPlain]
      rw [lastListKey_append_plain _ _ rfl]
      exact h
    | some li =>
      simp only [pushListItem]
      rw [lastListKey_append_list _ _ rfl]

theorem processAll_lastNumbering (ps : List Paragraph) :
    ∀ (i : Nat) (st : IndexState), st.lastNumbering = lastListKey st.allParagraphsData →
      (processAll i ps st).lastNumbering = lastListKey (processAll i ps st).allParagraphsData := by
  induction ps with
  | nil => intro i st h; exact h
  | cons p ps ih =>
    intro i st h
    exact ih (i + 1) _ (processParagraph_lastNumbering i p st h)

theorem lastNumbering_eq_lastListKey (pre : List Paragraph) :
    (processAll 0 pre initialIndexState).lastNumbering = lastListKey (indexOf pre) := by
  rw [indexOf_eq]
  exact processAll_lastNumbering pre 0 initialIndexState rfl

theorem indexOf_plain (pre post : List Paragraph) (p : Paragraph)
    (hp : p.isListItem = false) (hlen : 1 < (normalizeText p.text).length) :
    ∃ rest, indexOf (pre ++ p :: post) =
      indexOf pre ++
        { key := plainKey (lastListKey (indexOf pre)) pre.length,
          value := normalizeText p.text, originalText := trim p.text, isListItem := false } ::
          rest := by
  obtain ⟨rest, h⟩ := indexOf_split pre post p
  refine ⟨rest, ?_⟩
  rw [h, ← lastNumbering_eq_lastListKey, indexOf_eq pre]
  have hnot : ¬ (normalizeText p.text).length ≤ 1 := by omega
  have hnone : p.listItem = none := by simpa [Paragraph.isListItem] using hp
  simp only [processParagraph, hnot, if_false, hnone, pushPlain]
  simp

/-- C13 (as stated, refuted): a paragraph that is not a list item and comes after an
emitted list item does not always get that item's key followed by ".text".  After a list
item whose marker is empty, and whose key is therefore empty, the paragraph "Some body
text" gets the positional key "text_2", not ".text". -/
theorem plain_key_after_list_item_refuted :
    ¬ ∀ (pre post : List Paragraph) (p : Paragraph),
        p.isListItem = false → 1 < (normalizeText p.text).length →
        (∃ q ∈ pre, q.isListItem = true ∧ 1 < (normalizeText q.text).length) →
        ∃ rest, indexOf (pre ++ p :: post) =
          indexOf pre ++
            { key := lastListKey (indexOf pre) ++ ".text", value := normalizeText p.text,
              originalText := trim p.text, isListItem := false } :: rest := by
  intro h
  obtain ⟨rest, heq⟩ := h emptyMarkerDocument [] (plainParagraph "Some body text")
    (by decide) (by decide) ⟨listParagraph "Bullet item" 0 "", by decide, by decide, by decide⟩
  have hidx : indexOf (emptyMarkerDocument ++ [plainParagraph "Some body text"]) =
      indexOf emptyMarkerDocument ++
        [{ key := "text_2", value := "Some body text", originalText := "Some body text",
           isListItem := false }] := by decide
  rw [hidx] at heq
  have hr := (List.cons.inj (List.append_cancel_left heq)).1
  have hkey := congrArg ParagraphRecord.key hr
  revert hkey
  decide

/-- C13 (amended): an emitted paragraph that is not a list item gets the key of the most
recent emitted list item followed by ".text" when that key is not empty, and the
positional key "text_n" (n its 1-based position) when that key is empty or no list item
has been emitted yet; hence two consecutive such paragraphs after a list item with a
non-empty key get the identical key. -/
theorem plain_paragraph_key (pre post : List Paragraph) (p q : Paragraph)
    (hp : p.isListItem = false) (hq : q.isListItem = false)
    (hlenp : 1 < (normalizeText p.text).length) (hlenq : 1 < (normalizeText q.text).length) :
    (∃ rest, indexOf (pre ++ p :: post) =
      indexOf pre ++
        { key := if lastListKey (indexOf pre) = "" then "text_" ++ toString (pre.length + 1)
                 else lastListKey (indexOf pre) ++ ".text",
          value := normalizeText p.text, originalText := trim p.text, isListItem := false } ::
          rest) ∧
      (lastListKey (indexOf pre) ≠ "" →
        ∃ rest, indexOf (pre ++ p :: q :: post) =
          indexOf pre ++
            { key := lastListKey (indexOf pre) ++ ".text", value := normalizeText p.text,
              originalText := trim p.text, isListItem := false } ::
            { key := lastListKey (indexOf pre) ++ ".text", value := normalizeText q.text,
              originalText := trim q.text, isListItem := false } :: rest) := by
  constructor
  · obtain ⟨rest, h⟩ := indexOf_plain pre post p hp hlenp
    exact ⟨rest, by rw [h]; rfl⟩
  · intro hne
    obtain ⟨rest1, h1⟩ := indexOf_plain pre [] p hp hlenp
    have hrest1 : rest1 = [] := by
      have hlen := congrArg List.length h1
      have hcont := processAll_content (pre ++ [p]) 0 initialIndexState
      have hcont2 := processAll_content pre 0 initialIndexState
      rw [← indexOf_eq] at hcont hcont2
      have hl := congrArg List.length hcont
      have hl2 := congrArg List.length hcont2
      simp only [List.length_map, List.length_append, List.filter_append, initialIndexState,
        List.length_nil, Nat.zero_add] at hl hl2
      have hfilter : ([p].filter
          (fun p => decide (1 < (normalizeText p.text).length))).length = 1 := by
        simp [hlenp]
      simp only [List.length_append, List.length_cons] at hlen
      rw [hl, hl2, hfilter] at hlen
      apply List.eq_nil_of_length_eq_zero
      omega
    rw [hrest1] at h1
    obtain ⟨rest, h2⟩ := indexOf_plain (pre ++ [p]) post q hq hlenq
    refine ⟨rest, ?_⟩
    have happ : pre ++ p :: q :: post = (pre ++ [p]) ++ q :: post := by simp
    rw [happ, h2, h1, lastListKey_append_plain _ _ rfl]
    simp [plainKey, hne]

theorem plain_paragraph_key_witness :
    ∃ rest, indexOf (exampleDocument ++ plainParagraph "More body text" ::
        plainParagraph "Closing remark" :: []) =
      indexOf exampleDocument ++
        { key := lastListKey (indexOf exampleDocument) ++ ".text",
          value := normalizeText (plainParagraph "More body text").text,
          originalText := trim (plainParagraph "More body text").text, isListItem := false } ::
        { key := lastListKey (indexOf exampleDocument) ++ ".text",
          value := normalizeText (plainParagraph "Closing remark").text,
          originalText := trim (plainParagraph "Closing remark").text, isListItem := false } ::
          rest :=
  (plain_paragraph_key exampleDocument [] (plainParagraph "More body text")
    (plainParagraph "Closing remark") (by decide) (by decide) (by decide) (by decide)).2
    (by decide)

/-! ## Paragraphs that are skipped -/

theorem sameUpToPosition_refl (l : List ParagraphRecord) :
    List.Forall₂ SameUpToPosition l l := by
  induction l with
  | nil => exact List.Forall₂.nil
  | cons r l ih => exact List.Forall₂.cons ⟨rfl, rfl, rfl, Or.inl rfl⟩ ih

theorem forall₂_snoc (l l' : List ParagraphRecord) (r r' : ParagraphRecord)
    (h : List.Forall₂ SameUpToPosition l l') (hr : SameUpToPosition r r') :
    List.Forall₂ SameUpToPosition (l ++ [r]) (l' ++ [r']) :=
  List.rel_append h (List.Forall₂.cons hr List.Forall₂.nil)

theorem processParagraph_shift (i : Nat) (p : Paragraph) (st st' : IndexState)
    (hpn : st.parentNumbering = st'.parentNumbering)
    (hlast : st.lastNumbering = st'.lastNumbering)
    (hall : List.Forall₂ SameUpToPosition st.allParagraphsData st'.allParagraphsData) :
    (processParagraph i p st).parentNumbering = (processParagraph (i + 1) p st').parentNumbering ∧
      (processParagraph i p st).lastNumbering = (processParagraph (i + 1) p st').lastNumbering ∧
      List.Forall₂ SameUpToPosition (processParagraph i p st).allParagraphsData
        (processParagraph (i + 1) p st').allParagraphsData := by
  unfold processParagraph
  by_cases hl : (normalizeText p.text).length ≤ 1
  · simp only [hl, if_true]
    exact ⟨hpn, hlast, hall⟩
  · simp only [hl, if_false]
    cases hli : p.listItem with
    | none =>
      simp only [pushPlain]
      refine ⟨hpn, hlast, forall₂_snoc _ _ _ _ hall ⟨rfl, rfl, rfl, ?_⟩⟩
      rw [hlast]
      unfold plainKey
      by_cases he : st'.lastNumbering = ""
      · rw [if_pos he, if_pos he]
        exact Or.inr ⟨i + 1, rfl, rfl⟩
      · rw [if_neg he, if_neg he]
        exact Or.inl rfl
    | some li =>
      simp only [pushListItem]
      rw [hpn]
      exact ⟨rfl, rfl, forall₂_snoc _ _ _ _ hall ⟨rfl, rfl, rfl, Or.inl rfl⟩⟩

theorem processAll_shift (ps : List Paragraph) :
    ∀ (i : Nat) (st st' : IndexState), st.parentNumbering = st'.parentNumbering →
      st.lastNumbering = st'.lastNumbering →
      List.Forall₂ SameUpToPosition st.allParagraphsData st'.allParagraphsData →
      (processAll i ps st).parentNumbering = (processAll (i + 1) ps st').parentNumbering ∧
        List.Forall₂ SameUpToPosition (processAll i ps st).allParagraphsData
          (processAll (i + 1) ps st').allParagraphsData := by
  induction ps with
  | nil => intro i st st' hpn _ hall; exact ⟨hpn, hall⟩
  | cons p ps ih =>
    intro i st st' hpn hlast hall
    obtain ⟨h1, h2, h3⟩ := processParagraph_shift i p st st' hpn hlast hall
    exact ih (i + 1) _ _ h1 h2 h3

/-- C14: a paragraph whose normalized text has length at most 1, list item or not, does
not affect the numbering state: inserting it anywhere in a document leaves the ancestor
stack at the end as it was and leaves the emitted records, one for one, unchanged in
value, originalText and isListItem, and unchanged in key except that a positional key
"text_n" may become "text_(n+1)". -/
theorem skipped_paragraph_insertion (pre post : List Paragraph) (noise : Paragraph)
    (hnoise : (normalizeText noise.text).length ≤ 1) :
    stackAfter (pre ++ post) = stackAfter (pre ++ noise :: post) ∧
      List.Forall₂ SameUpToPosition (indexOf (pre ++ post)) (indexOf (pre ++ noise :: post)) := by
  have hstep : processParagraph pre.length noise (processAll 0 pre initialIndexState) =
      processAll 0 pre initialIndexState := by
    simp [processParagraph, hnoise]
  have h := processAll_shift post pre.length (processAll 0 pre initialIndexState)
    (processAll 0 pre initialIndexState) rfl rfl (sameUpToPosition_refl _)
  rw [stackAfter_eq, stackAfter_eq, indexOf_eq, indexOf_eq, processAll_append,
    processAll_append]
  simp only [processAll, Nat.zero_add, hstep]
  exact h

theorem skipped_paragraph_insertion_witness :
    stackAfter ([plainParagraph "Title line"] ++
        [plainParagraph "Some body text", listParagraph "First item" 0 "1)"]) =
      stackAfter ([plainParagraph "Title line"] ++ listParagraph " " 3 "x)" ::
        [plainParagraph "Some body text", listParagraph "First item" 0 "1)"]) ∧
      List.Forall₂ SameUpToPosition
        (indexOf ([plainParagraph "Title line"] ++
          [plainParagraph "Some body text", listParagraph "First item" 0 "1)"]))
        (indexOf ([plainParagraph "Title line"] ++ listParagraph " " 3 "x)" ::
          [plainParagraph "Some body text", listParagraph "First item" 0 "1)"])) :=
  skipped_paragraph_insertion [plainParagraph "Title line"]
    [plainParagraph "Some body text", listParagraph "First item" 0 "1)"]
    (listParagraph " " 3 "x)") (by decide)

/-! ## What normalizing leaves in a text -/

theorem normalizeText_printable (text : String) (c : Char) (h : c ∈ (normalizeText text).data) :
    32 ≤ c.toNat ∧ c.toNat ≤ 126 := by
  have hp : isPrintableAscii c = true := by
    simp only [normalizeText, stripNonPrintable] at h
    exact (List.mem_filter.1 h).2
  simpa [isPrintableAscii] using hp

/-- C15 (the code at the failing input): the characters outside printable ASCII are
removed after the runs of white space have been collapsed, so the spaces on both sides of
a removed character stay.  "Terms — conditions" normalizes to "Terms  conditions", with
two consecutive spaces; "• Item" normalizes to " Item", with a leading space; "Item •"
normalizes to "Item ", with a trailing space.  Every character that is left is printable
ASCII. -/
theorem normalizeText_keeps_spaces_around_removed_characters :
    normalizeText "Terms — conditions" = "Terms  conditions" ∧
      normalizeText "• Item" = " Item" ∧
      normalizeText "Item •" = "Item " ∧
      ∀ (text : String) (c : Char), c ∈ (normalizeText text).data →
        32 ≤ c.toNat ∧ c.toNat ≤ 126 := by
  refine ⟨by decide, by decide, by decide, normalizeText_printable⟩

/-! ## Matching against an index built by the indexer -/

theorem indexOf_value_of_originalText (items : List Paragraph) (r : ParagraphRecord)
    (hr : r ∈ indexOf items) : r.value = normalizeText r.originalText := by
  have hcontent := processAll_content items 0 initialIndexState
  rw [← indexOf_eq] at hcontent
  simp only [initialIndexState, List.map_nil, List.nil_append] at hcontent
  have hmem : (r.value, r.originalText, r.isListItem) ∈
      (indexOf items).map (fun r => (r.value, r.originalText, r.isListItem)) :=
    List.mem_map.2 ⟨r, hr, rfl⟩
  rw [hcontent] at hmem
  obtain ⟨p, _, hp⟩ := List.mem_map.1 hmem
  simp only [Prod.mk.injEq] at hp
  rw [← hp.1, ← hp.2.1, normalizeText_trim]

theorem find?_congr_mem (l : List ParagraphRecord) (f g : ParagraphRecord → Bool)
    (h : ∀ r ∈ l, f r = g r) : l.find? f = l.find? g := by
  induction l with
  | nil => rfl
  | cons a l ih =>
    have ha : f a = g a := h a (List.mem_cons_self _ _)
    have hl : l.find? f = l.find? g := ih (fun r hr => h r (List.mem_cons_of_mem _ hr))
    simp only [List.find?_cons, ha, hl]

theorem findMatch_indexOf (items : List Paragraph) (text : String) :
    findMatch (indexOf items) text =
      (indexOf items).find? (fun r => r.value == normalizeText text) := by
  unfold findMatch
  simp only [normalizeText_trim]
  apply find?_congr_mem
  intro r hr
  unfold matchesSelection
  by_cases hv : r.value = normalizeText text
  · simp [hv]
  · have ho : r.originalText ≠ trim text := by
      intro ho
      apply hv
      rw [indexOf_value_of_originalText items r hr, ho, normalizeText_trim]
    simp [hv, ho]

/-- C20: against an index built by the indexer the originalText test of the match is
redundant: a record whose originalText equals the trimmed selected text has a value equal
to the normalized selected text, so the matched record is the first record whose value
equals the normalized selected text, and the value of every candidate of a pass is the
normalized text of one of the selected paragraphs. -/
theorem originalText_test_redundant (items : List Paragraph)
    (clipboardData : List SelectionEntry) (selection : List String) (text : String) :
    (∀ r ∈ indexOf items, r.originalText = trim text → r.value = normalizeText text) ∧
      findMatch (indexOf items) text =
        (indexOf items).find? (fun r => r.value == normalizeText text) ∧
      (∀ e ∈ collectSelections (indexOf items) clipboardData selection,
        ∃ t ∈ selection, e.value = normalizeText t ∧
          ∃ r, findMatch (indexOf items) t = some r ∧ e = { key := r.key, value := r.value }) := by
  refine ⟨?_, findMatch_indexOf items text, ?_⟩
  · intro r hr ho
    rw [indexOf_value_of_originalText items r hr, ho, normalizeText_trim]
  · intro e he
    rw [collectSelections_eq_flatMap, List.mem_flatMap] at he
    obtain ⟨t, ht, hmem⟩ := he
    refine ⟨t, ht, ?_⟩
    unfold selectParagraph at hmem
    cases hm : findMatch (indexOf items) t with
    | none => simp [hm] at hmem
    | some r =>
      rw [hm] at hmem
      by_cases hd : isDuplicate clipboardData r = true
      · simp [hd] at hmem
      · simp [hd] at hmem
        have hfind := hm
        rw [findMatch_indexOf] at hfind
        have hval := List.find?_some hfind
        simp only [beq_iff_eq] at hval
        exact ⟨by rw [hmem]; exact hval, r, rfl, hmem⟩

/-! ## Consistency of the comparator -/

theorem codepointCompare_eq (a b : String) :
    codepointCompare a b = if a < b then -1 else if b < a then 1 else 0 := by
  unfold codepointCompare
  simp only [String.lt_iff_toList_lt]
  rfl

theorem codepointCompare_nonpos (a b : String) : codepointCompare a b ≤ 0 ↔ a ≤ b := by
  rw [codepointCompare_eq]
  rcases lt_trichotomy a b with h | h | h
  · simp [h, le_of_lt h]
  · simp [h]
  · simp [h, not_lt_of_lt h, not_le_of_lt h]

theorem codepointCompare_sign (a b : String) :
    Int.sign (codepointCompare b a) = - Int.sign (codepointCompare a b) := by
  rw [codepointCompare_eq, codepointCompare_eq]
  rcases lt_trichotomy a b with h | h | h
  · simp [h, not_lt_of_lt h]
  · simp [h]
  · simp [h, not_lt_of_lt h]

theorem codepointCompare_trans (a b c : String) (hab : codepointCompare a b ≤ 0)
    (hbc : codepointCompare b c ≤ 0) : codepointCompare a c ≤ 0 := by
  rw [codepointCompare_nonpos] at hab hbc ⊢
  exact le_trans hab hbc

/-- C18 (as stated, refuted): the comparator is not transitive on keys the indexer
produces.  The document with a preamble, an item "2)" and an item "a)" has the keys
"text_1", "2)" and "a)"; "2)" compares below "a)" and "a)" below "text_1", both by string
comparison, yet "2)" compares above "text_1" by their numbers 2 and 1.  Two accumulations
with these same three entries come out of the sort in different orders. -/
theorem comparator_transitive_refuted :
    (¬ ∀ a b c : SelectionEntry, compareEntries codepointCompare a b ≤ 0 →
        compareEntries codepointCompare b c ≤ 0 → compareEntries codepointCompare a c ≤ 0) ∧
      (indexOf mixedKeysDocument).map (fun r => r.key) = ["text_1", "2)", "a)"] ∧
      sortEntries codepointCompare
          [{ key := "2)", value := "Numbered item" }, { key := "a)", value := "Lettered item" },
           { key := "text_1", value := "Preamble text" }] =
        [{ key := "2)", value := "Numbered item" }, { key := "a)", value := "Lettered item" },
         { key := "text_1", value := "Preamble text" }] ∧
      sortEntries codepointCompare
          [{ key := "text_1", value := "Preamble text" }, { key := "2)", value := "Numbered item" },
           { key := "a)", value := "Lettered item" }] =
        [{ key := "text_1", value := "Preamble text" }, { key := "2)", value := "Numbered item" },
         { key := "a)", value := "Lettered item" }] := by
  refine ⟨?_, by decide, by decide, by decide⟩
  intro h
  have h1 := h { key := "2)", value := "Numbered item" } { key := "a)", value := "Lettered item" }
    { key := "text_1", value := "Preamble text" } (by decide) (by decide)
  revert h1
  decide

/-- C18 (amended): given a string comparison that is antisymmetric in sign and
transitive, the comparator is antisymmetric in sign on all keys, and it is transitive on
three keys that all contain a digit and on three keys none of which contains a digit;
nothing is claimed for keys with digits mixed with keys without. -/
theorem comparator_consistent_on_like_keys (lc : String → String → Int)
    (hanti : ∀ x y, Int.sign (lc y x) = - Int.sign (lc x y))
    (htrans : ∀ x y z, lc x y ≤ 0 → lc y z ≤ 0 → lc x z ≤ 0) (a b c : SelectionEntry) :
    Int.sign (compareEntries lc b a) = - Int.sign (compareEntries lc a b) ∧
      (firstDigitRun a.key ≠ none → firstDigitRun b.key ≠ none → firstDigitRun c.key ≠ none →
        compareEntries lc a b ≤ 0 → compareEntries lc b c ≤ 0 → compareEntries lc a c ≤ 0) ∧
      (firstDigitRun a.key = none → firstDigitRun b.key = none → firstDigitRun c.key = none →
        compareEntries lc a b ≤ 0 → compareEntries lc b c ≤ 0 → compareEntries lc a c ≤ 0) := by
  refine ⟨?_, ?_, ?_⟩
  · cases hx : firstDigitRun a.key with
    | none =>
      cases hy : firstDigitRun b.key with
      | none =>
        simp only [compareEntries, hx, hy]
        exact hanti _ _
      | some y =>
        simp only [compareEntries, hx, hy]
        exact hanti _ _
    | some x =>
      cases hy : firstDigitRun b.key with
      | none =>
        simp only [compareEntries, hx, hy]
        exact hanti _ _
      | some y =>
        simp only [compareEntries, hx, hy]
        rw [← neg_sub, Int.sign_neg]
  · intro ha hb hc hab hbc
    rw [compareEntries_eq_keyNumber lc _ _ ha hb] at hab
    rw [compareEntries_eq_keyNumber lc _ _ hb hc] at hbc
    rw [compareEntries_eq_keyNumber lc _ _ ha hc]
    omega
  · intro ha hb hc hab hbc
    simp only [compareEntries, ha, hb, hc] at hab hbc ⊢
    exact htrans _ _ _ hab hbc

theorem comparator_consistent_on_like_keys_witness :
    Int.sign (compareEntries codepointCompare { key := "a)", value := "Lettered item" }
        { key := "2)", value := "Numbered item" }) =
      - Int.sign (compareEntries codepointCompare { key := "2)", value := "Numbered item" }
        { key := "a)", value := "Lettered item" }) ∧
      compareEntries codepointCompare { key := "2)", value := "Numbered item" }
        { key := "text_10", value := "Tenth paragraph" } ≤ 0 :=
  ⟨(comparator_consistent_on_like_keys codepointCompare codepointCompare_sign
      codepointCompare_trans { key := "2)", value := "Numbered item" }
      { key := "a)", value := "Lettered item" }
      { key := "text_1", value := "Preamble text" }).1,
   (comparator_consistent_on_like_keys codepointCompare codepointCompare_sign
      codepointCompare_trans { key := "2)", value := "Numbered item" }
      { key := "3).text", value := "Third body" }
      { key := "text_10", value := "Tenth paragraph" }).2.1
      (by decide) (by decide) (by decide) (by decide) (by decide)⟩


/-! ## The engine's sort under a comparator that compares by a number -/

theorem runTail_congr {α : Type} (cmp cmp' : α → α → Int) (d : Bool) (rest : List α) :
    ∀ previous : α,
      (∀ a ∈ previous :: rest, ∀ b ∈ previous :: rest, cmp a b = cmp' a b) →
      runTail cmp d previous rest = runTail cmp' d previous rest := by
  induction rest with
  | nil => intro previous _; rfl
  | cons current rest ih =>
    intro previous h
    have hcp : cmp current previous = cmp' current previous :=
      h current (by simp) previous (by simp)
    have hrest : runTail cmp d current rest = runTail cmp' d current rest :=
      ih current (fun a ha b hb =>
        h a (List.mem_cons_of_mem _ ha) b (List.mem_cons_of_mem _ hb))
    simp only [runTail, hcp, hrest]

theorem binarySearch_congr {α : Type} (cmp cmp' : α → α → Int) (pivot : α) (sorted : List α)
    (h : ∀ e ∈ sorted, cmp pivot e = cmp' pivot e) :
    ∀ fuel left right, binarySearch cmp pivot sorted fuel left right =
      binarySearch cmp' pivot sorted fuel left right := by
  intro fuel
  induction fuel with
  | zero => intro left right; rfl
  | succ fuel ih =>
    intro left right
    unfold binarySearch
    by_cases hlr : left < right
    · simp only [hlr, if_true]
      cases hget : sorted[left + (right - left) / 2]? with
      | none => rfl
      | some e =>
        have he : e ∈ sorted := List.mem_iff_getElem?.2 ⟨_, hget⟩
        simp only [h e he, ih]
    · simp only [hlr, if_false]

theorem binaryInsert_congr {α : Type} (cmp cmp' : α → α → Int) (pivot : α) (sorted : List α)
    (h : ∀ e ∈ sorted, cmp pivot e = cmp' pivot e) :
    binaryInsert cmp sorted pivot = binaryInsert cmp' sorted pivot := by
  unfold binaryInsert
  rw [binarySearch_congr cmp cmp' pivot sorted h]

theorem binaryInsertionSort_congr {α : Type} (cmp cmp' : α → α → Int) (rest : List α) :
    ∀ sorted : List α,
      (∀ a ∈ sorted ++ rest, ∀ b ∈ sorted ++ rest, cmp a b = cmp' a b) →
      binaryInsertionSort cmp sorted rest = binaryInsertionSort cmp' sorted rest := by
  induction rest with
  | nil => intro sorted _; rfl
  | cons pivot rest ih =>
    intro sorted h
    simp only [binaryInsertionSort]
    rw [binaryInsert_congr cmp cmp' pivot sorted
      (fun e he => h pivot (by simp) e (by simp [he]))]
    apply ih
    intro a ha b hb
    have hmem : ∀ c, c ∈ binaryInsert cmp' sorted pivot ++ rest → c ∈ sorted ++ pivot :: rest := by
      intro c hc
      rcases List.mem_append.1 hc with hc | hc
      · have := (binaryInsert_perm cmp' sorted pivot).mem_iff.1 hc
        rcases List.mem_cons.1 this with hc | hc
        · simp [hc]
        · simp [hc]
      · simp [hc]
    exact h a (hmem a ha) b (hmem b hb)

theorem arraySort_congr {α : Type} (cmp cmp' : α → α → Int) (l : List α)
    (h : ∀ a ∈ l, ∀ b ∈ l, cmp a b = cmp' a b) : arraySort cmp l = arraySort cmp' l := by
  match l with
  | [] => rfl
  | [x] => rfl
  | x0 :: x1 :: rest =>
    have h10 : cmp x1 x0 = cmp' x1 x0 := h x1 (by simp) x0 (by simp)
    have hrun : runTail cmp (decide (cmp' x1 x0 < 0)) x1 rest =
        runTail cmp' (decide (cmp' x1 x0 < 0)) x1 rest :=
      runTail_congr cmp cmp' _ rest x1 (fun a ha b hb =>
        h a (List.mem_cons_of_mem _ ha) b (List.mem_cons_of_mem _ hb))
    simp only [arraySort, h10, hrun]
    apply binaryInsertionSort_congr
    intro a ha b hb
    have hmem : ∀ c, c ∈ (if cmp' x1 x0 < 0 then
          ((x0 :: x1 :: rest).take (2 + runTail cmp' (decide (cmp' x1 x0 < 0)) x1 rest)).reverse
        else (x0 :: x1 :: rest).take (2 + runTail cmp' (decide (cmp' x1 x0 < 0)) x1 rest)) ++
        (x0 :: x1 :: rest).drop (2 + runTail cmp' (decide (cmp' x1 x0 < 0)) x1 rest) →
        c ∈ x0 :: x1 :: rest := by
      intro c hc
      rcases List.mem_append.1 hc with hc | hc
      · split at hc
        · exact List.mem_of_mem_take (List.mem_reverse.1 hc)
        · exact List.mem_of_mem_take hc
      · exact List.mem_of_mem_drop hc
    exact h a (hmem a ha) b (hmem b hb)

theorem binarySearch_eq {α : Type} (cmp : α → α → Int) (pivot : α) (sorted : List α) (m : Nat)
    (hlt : ∀ i e, sorted[i]? = some e → i < m → ¬ cmp pivot e < 0)
    (hge : ∀ i e, sorted[i]? = some e → m ≤ i → cmp pivot e < 0) :
    ∀ fuel left right, left ≤ m → m ≤ right → right ≤ sorted.length → right - left ≤ fuel →
      binarySearch cmp pivot sorted fuel left right = m := by
  intro fuel
  induction fuel with
  | zero =>
    intro left right h1 h2 _ h4
    simp only [binarySearch]
    omega
  | succ fuel ih =>
    intro left right h1 h2 h3 h4
    unfold binarySearch
    by_cases hlr : left < right
    · simp only [hlr, if_true]
      have hmid : left + (right - left) / 2 < sorted.length := by omega
      rw [List.getElem?_eq_getElem hmid]
      simp only []
      by_cases hc : cmp pivot sorted[left + (right - left) / 2] < 0
      · simp only [hc, if_true]
        have hm : m ≤ left + (right - left) / 2 := by
          by_contra hcon
          exact hlt _ _ (List.getElem?_eq_getElem hmid) (by omega) hc
        exact ih left _ h1 hm (by omega) (by omega)
      · simp only [hc, if_false]
        have hm : left + (right - left) / 2 + 1 ≤ m := by
          by_contra hcon
          exact hc (hge _ _ (List.getElem?_eq_getElem hmid) (by omega))
        exact ih _ right hm h2 h3 (by omega)
    · simp only [hlr, if_false]
      omega

theorem dropWhile_above {α : Type} (f : α → Int) (x : α) (sorted : List α)
    (hs : sorted.Pairwise (fun a b => f a ≤ f b)) :
    ∀ b ∈ sorted.dropWhile (fun e => decide (f e ≤ f x)), f x < f b := by
  induction sorted with
  | nil => intro b hb; simp at hb
  | cons a rest ih =>
    obtain ⟨ha, hrest⟩ := List.pairwise_cons.1 hs
    intro b hb
    by_cases hax : f a ≤ f x
    · rw [List.dropWhile_cons_of_pos (by simpa using hax)] at hb
      exact ih hrest b hb
    · rw [List.dropWhile_cons_of_neg (by simpa using hax)] at hb
      rcases List.mem_cons.1 hb with hb | hb
      · rw [hb]; omega
      · have := ha b hb
        omega

theorem split_at_pivot {α : Type} (f : α → Int) (sorted : List α) (x : α)
    (hs : sorted.Pairwise (fun a b => f a ≤ f b)) :
    ∃ A B, sorted = A ++ B ∧ (∀ a ∈ A, f a ≤ f x) ∧ (∀ b ∈ B, f x < f b) := by
  refine ⟨sorted.takeWhile (fun e => decide (f e ≤ f x)),
    sorted.dropWhile (fun e => decide (f e ≤ f x)),
    (List.takeWhile_append_dropWhile _ _).symm, ?_, dropWhile_above f x sorted hs⟩
  intro a ha
  simpa using List.mem_takeWhile_imp ha

theorem binaryInsert_spec {α : Type} (f : α → Int) (sorted : List α) (x : α)
    (hs : sorted.Pairwise (fun a b => f a ≤ f b)) :
    ∃ A B, sorted = A ++ B ∧ binaryInsert (fun a b => f a - f b) sorted x = A ++ x :: B ∧
      (∀ a ∈ A, f a ≤ f x) ∧ (∀ b ∈ B, f x < f b) := by
  obtain ⟨A, B, hAB, hA, hB⟩ := split_at_pivot f sorted x hs
  subst hAB
  have hsearch : binarySearch (fun a b => f a - f b) x (A ++ B) (A ++ B).length 0
      (A ++ B).length = A.length := by
    apply binarySearch_eq
    · intro i e hget hi
      have hmem : e ∈ A := by
        rw [List.getElem?_append_left hi] at hget
        exact List.mem_iff_getElem?.2 ⟨i, hget⟩
      have := hA e hmem
      omega
    · intro i e hget hi
      have hmem : e ∈ B := by
        rw [List.getElem?_append_right hi] at hget
        exact List.mem_iff_getElem?.2 ⟨_, hget⟩
      have := hB e hmem
      omega
    · omega
    · simp
    · exact Nat.le_refl _
    · omega
  refine ⟨A, B, rfl, ?_, hA, hB⟩
  unfold binaryInsert
  rw [hsearch, List.take_left, List.drop_left]

theorem binaryInsert_sorted {α : Type} (f : α → Int) (sorted : List α) (x : α)
    (hs : sorted.Pairwise (fun a b => f a ≤ f b)) :
    (binaryInsert (fun a b => f a - f b) sorted x).Pairwise (fun a b => f a ≤ f b) := by
  obtain ⟨A, B, hAB, hins, hA, hB⟩ := binaryInsert_spec f sorted x hs
  rw [hAB, List.pairwise_append] at hs
  obtain ⟨hpA, hpB, hcross⟩ := hs
  rw [hins, List.pairwise_append]
  refine ⟨hpA, List.pairwise_cons.2 ⟨fun b hb => le_of_lt (hB b hb), hpB⟩, ?_⟩
  intro a ha b hb
  rcases List.mem_cons.1 hb with hb | hb
  · rw [hb]; exact hA a ha
  · exact hcross a ha b hb

theorem binaryInsertionSort_sorted {α : Type} (f : α → Int) (rest : List α) :
    ∀ sorted : List α, sorted.Pairwise (fun a b => f a ≤ f b) →
      (binaryInsertionSort (fun a b => f a - f b) sorted rest).Pairwise
        (fun a b => f a ≤ f b) := by
  induction rest with
  | nil => intro sorted hs; exact hs
  | cons x rest ih =>
    intro sorted hs
    exact ih _ (binaryInsert_sorted f sorted x hs)

theorem sublist_left_of_not_mem {α : Type} (c A B : List α) (h : c.Sublist (A ++ B))
    (hc : ∀ e ∈ c, e ∉ B) : c.Sublist A := by
  obtain ⟨c1, c2, hc12, h1, h2⟩ := List.sublist_append_iff.1 h
  have hnil : c2 = [] := by
    cases c2 with
    | nil => rfl
    | cons e c2 =>
      exact absurd (h2.subset (List.mem_cons_self _ _)) (hc e (by simp [hc12]))
  rw [hc12, hnil, List.append_nil]
  exact h1

theorem binaryInsertionSort_stable {α : Type} (f : α → Int) (rest : List α) :
    ∀ (sorted c1 c2 : List α), sorted.Pairwise (fun a b => f a ≤ f b) →
      c1.Sublist sorted → c2.Sublist rest → (c1 ++ c2).Pairwise (fun a b => f a ≤ f b) →
      (c1 ++ c2).Sublist (binaryInsertionSort (fun a b => f a - f b) sorted rest) := by
  induction rest with
  | nil =>
    intro sorted c1 c2 _ h1 h2 _
    rw [List.sublist_nil.1 h2, List.append_nil]
    exact h1
  | cons x rest ih =>
    intro sorted c1 c2 hs h1 h2 hp
    obtain ⟨A, B, hAB, hins, hA, hB⟩ := binaryInsert_spec f sorted x hs
    have hsorted := binaryInsert_sorted f sorted x hs
    simp only [binaryInsertionSort]
    cases h2 with
    | cons _ h2 =>
      apply ih _ c1 c2 hsorted _ h2 hp
      rw [hins]
      refine h1.trans ?_
      rw [hAB]
      exact List.Sublist.append (List.Sublist.refl A) (List.sublist_cons_self x B)
    | cons₂ _ h2 =>
      rename_i c2
      have hle : ∀ e ∈ c1, f e ≤ f x := by
        intro e he
        have := (List.pairwise_append.1 hp).2.2 e he x (List.mem_cons_self _ _)
        exact this
      have hc1A : c1.Sublist A := by
        apply sublist_left_of_not_mem c1 A B (hAB ▸ h1)
        intro e he heB
        have h1 := hle e he
        have h2 := hB e heB
        omega
      have hnew : (c1 ++ [x]).Sublist (binaryInsert (fun a b => f a - f b) sorted x) := by
        rw [hins]
        exact List.Sublist.append hc1A
          (List.Sublist.cons₂ x (List.nil_sublist B))
      have := ih _ (c1 ++ [x]) c2 hsorted hnew h2 (by simpa using hp)
      simpa using this

theorem run_ascending {α : Type} (f : α → Int) (rest : List α) :
    ∀ previous : α,
      ((previous :: rest).take
          (1 + runTail (fun a b => f a - f b) false previous rest)).Pairwise
          (fun a b => f a ≤ f b) ∧
        ∀ e ∈ (previous :: rest).take
          (1 + runTail (fun a b => f a - f b) false previous rest), f previous ≤ f e := by
  induction rest with
  | nil => intro previous; simp [runTail]
  | cons current rest ih =>
    intro previous
    by_cases hc : f current - f previous < 0
    · simp [runTail, hc]
    · obtain ⟨hp, hb⟩ := ih current
      have hk : 1 + runTail (fun a b => f a - f b) false previous (current :: rest) =
          (1 + runTail (fun a b => f a - f b) false current rest) + 1 := by
        simp only [runTail, hc, if_false, Bool.false_eq_true]
        omega
      rw [hk, List.take_succ_cons]
      have hall : ∀ e ∈ (current :: rest).take
          (1 + runTail (fun a b => f a - f b) false current rest), f previous ≤ f e := by
        intro e he
        have := hb e he
        omega
      refine ⟨List.pairwise_cons.2 ⟨hall, hp⟩, ?_⟩
      intro e he
      rcases List.mem_cons.1 he with he | he
      · rw [he]
      · exact hall e he

theorem run_descending {α : Type} (f : α → Int) (rest : List α) :
    ∀ previous : α,
      ((previous :: rest).take
          (1 + runTail (fun a b => f a - f b) true previous rest)).Pairwise
          (fun a b => f b < f a) ∧
        ∀ e ∈ (previous :: rest).take
          (1 + runTail (fun a b => f a - f b) true previous rest), f e ≤ f previous := by
  induction rest with
  | nil => intro previous; simp [runTail]
  | cons current rest ih =>
    intro previous
    by_cases hc : f current - f previous < 0
    · obtain ⟨hp, hb⟩ := ih current
      have hk : 1 + runTail (fun a b => f a - f b) true previous (current :: rest) =
          (1 + runTail (fun a b => f a - f b) true current rest) + 1 := by
        simp only [runTail, hc, if_true]
        omega
      rw [hk, List.take_succ_cons]
      have hall : ∀ e ∈ (current :: rest).take
          (1 + runTail (fun a b => f a - f b) true current rest), f e < f previous := by
        intro e he
        have := hb e he
        omega
      refine ⟨List.pairwise_cons.2 ⟨hall, hp⟩, ?_⟩
      intro e he
      rcases List.mem_cons.1 he with he | he
      · rw [he]
      · exact le_of_lt (hall e he)
    · simp [runTail, hc]

theorem initial_run_ascending {α : Type} (f : α → Int) (x0 x1 : α) (rest : List α)
    (h : ¬ f x1 - f x0 < 0) :
    ((x0 :: x1 :: rest).take (2 + runTail (fun a b => f a - f b) false x1 rest)).Pairwise
      (fun a b => f a ≤ f b) := by
  obtain ⟨hp, hb⟩ := run_ascending f rest x1
  rw [show 2 + runTail (fun a b => f a - f b) false x1 rest =
    (1 + runTail (fun a b => f a - f b) false x1 rest) + 1 by omega, List.take_succ_cons]
  refine List.pairwise_cons.2 ⟨?_, hp⟩
  intro e he
  have := hb e he
  omega

theorem initial_run_descending {α : Type} (f : α → Int) (x0 x1 : α) (rest : List α)
    (h : f x1 - f x0 < 0) :
    ((x0 :: x1 :: rest).take (2 + runTail (fun a b => f a - f b) true x1 rest)).Pairwise
      (fun a b => f b < f a) := by
  obtain ⟨hp, hb⟩ := run_descending f rest x1
  rw [show 2 + runTail (fun a b => f a - f b) true x1 rest =
    (1 + runTail (fun a b => f a - f b) true x1 rest) + 1 by omega, List.take_succ_cons]
  refine List.pairwise_cons.2 ⟨?_, hp⟩
  intro e he
  have := hb e he
  omega

theorem sublist_reverse_of_descending {α : Type} (f : α → Int) (c run : List α)
    (hc : c.Sublist run) (hp : c.Pairwise (fun a b => f a ≤ f b))
    (hrun : run.Pairwise (fun a b => f b < f a)) : c.Sublist run.reverse := by
  match c, hc, hp with
  | [], _, _ => exact List.nil_sublist _
  | [a], hc, _ =>
    exact List.singleton_sublist.2 (List.mem_reverse.2 (hc.subset (List.mem_cons_self _ _)))
  | a :: b :: c, hc, hp =>
    have h1 : f a ≤ f b := (List.pairwise_cons.1 hp).1 b (List.mem_cons_self _ _)
    have h2 : f b < f a :=
      (List.pairwise_cons.1 (hrun.sublist hc)).1 b (List.mem_cons_self _ _)
    omega

theorem arraySort_sorted {α : Type} (f : α → Int) (l : List α) :
    (arraySort (fun a b => f a - f b) l).Pairwise (fun a b => f a ≤ f b) := by
  match l with
  | [] => exact List.Pairwise.nil
  | [x] => exact List.pairwise_singleton _ _
  | x0 :: x1 :: rest =>
    simp only [arraySort]
    apply binaryInsertionSort_sorted
    by_cases h : f x1 - f x0 < 0
    · simp only [h, if_true, decide_True]
      rw [List.pairwise_reverse]
      exact (initial_run_descending f x0 x1 rest h).imp (fun hab => le_of_lt hab)
    · simp only [h, if_false, decide_False]
      exact initial_run_ascending f x0 x1 rest h

theorem arraySort_stable {α : Type} (f : α → Int) (l c : List α) (hc : c.Sublist l)
    (hp : c.Pairwise (fun a b => f a ≤ f b)) :
    c.Sublist (arraySort (fun a b => f a - f b) l) := by
  match l, hc with
  | [], hc => exact hc
  | [x], hc => exact hc
  | x0 :: x1 :: rest, hc =>
    simp only [arraySort]
    by_cases h : f x1 - f x0 < 0
    · simp only [h, if_true, decide_True]
      rw [← List.take_append_drop (2 + runTail (fun a b => f a - f b) true x1 rest)
        (x0 :: x1 :: rest)] at hc
      obtain ⟨c1, c2, hc12, h1, h2⟩ := List.sublist_append_iff.1 hc
      rw [hc12] at hp ⊢
      have hdesc := initial_run_descending f x0 x1 rest h
      apply binaryInsertionSort_stable f _ _ c1 c2 _ _ h2 hp
      · rw [List.pairwise_reverse]
        exact hdesc.imp (fun hab => le_of_lt hab)
      · exact sublist_reverse_of_descending f c1 _ h1 (List.pairwise_append.1 hp).1 hdesc
    · simp only [h, if_false, decide_False]
      rw [← List.take_append_drop (2 + runTail (fun a b => f a - f b) false x1 rest)
        (x0 :: x1 :: rest)] at hc
      obtain ⟨c1, c2, hc12, h1, h2⟩ := List.sublist_append_iff.1 hc
      rw [hc12] at hp ⊢
      exact binaryInsertionSort_stable f _ _ c1 c2 (initial_run_ascending f x0 x1 rest h)
        h1 h2 hp

/-! ## Digit runs and the numbers they denote -/

theorem isDigit_eq (c : Char) : isDigit c = c.isDigit := by
  unfold isDigit Char.isDigit Char.toNat
  have h1 : (c.val ≥ 48) ↔ 48 ≤ c.val.toNat := by
    show (48 : UInt32) ≤ c.val ↔ _
    rw [UInt32.le_def]
    rfl
  have h2 : (c.val ≤ 57) ↔ c.val.toNat ≤ 57 := by
    rw [UInt32.le_def]
    rfl
  simp only [h1, h2]

theorem firstDigitRun_eq (key : String) :
    firstDigitRun key = if leadingDigits key = [] then none else some (leadingDigits key) := by
  have hfun : isDigit = fun c => c.isDigit := funext isDigit_eq
  unfold firstDigitRun leadingDigits
  rw [hfun]
  cases hd : key.data.dropWhile (fun c => !c.isDigit) with
  | nil => simp
  | cons d rest =>
    have hne : key.data.dropWhile (fun c => !c.isDigit) ≠ [] := by simp [hd]
    have hhead := List.head_dropWhile_not (fun c => !c.isDigit) key.data hne
    have hdig : d.isDigit = true := by simpa [hd] using hhead
    simp [List.takeWhile_cons, hdig]

theorem leadingDigits_ne_nil (key : String) (h : ∃ c ∈ key.data, c.isDigit = true) :
    leadingDigits key ≠ [] := by
  obtain ⟨c, hc, hdig⟩ := h
  unfold leadingDigits
  cases hd : key.data.dropWhile (fun c => !c.isDigit) with
  | nil =>
    have := List.dropWhile_eq_nil_iff.1 hd c hc
    simp [hdig] at this
  | cons d rest =>
    have hne : key.data.dropWhile (fun c => !c.isDigit) ≠ [] := by simp [hd]
    have hhead := List.head_dropWhile_not (fun c => !c.isDigit) key.data hne
    have hdig : d.isDigit = true := by simpa [hd] using hhead
    simp [List.takeWhile_cons, hdig]

theorem firstDigitRun_ne_none (key : String) (h : ∃ c ∈ key.data, c.isDigit = true) :
    firstDigitRun key ≠ none := by
  rw [firstDigitRun_eq, if_neg (leadingDigits_ne_nil key h)]
  simp

theorem foldl_decimal (l : List Char) :
    ∀ acc : Nat, l.foldl (fun n c => 10 * n + (c.toNat - 48)) acc =
      acc * 10 ^ l.length + Nat.ofDigits 10 (l.reverse.map (fun c => c.toNat - 48)) := by
  induction l with
  | nil => intro acc; simp
  | cons c l ih =>
    intro acc
    rw [List.foldl_cons, ih, List.reverse_cons, List.map_append, Nat.ofDigits_append]
    simp only [List.length_cons, List.length_map, List.length_reverse, List.map_cons,
      List.map_nil, Nat.ofDigits_singleton]
    ring

theorem decimalValue_eq (l : List Char) :
    decimalValue l = Nat.ofDigits 10 (l.reverse.map (fun c => c.toNat - 48)) := by
  unfold decimalValue
  rw [foldl_decimal]
  simp

theorem keyNumber_eq_toDouble (key : String) (h : ∃ c ∈ key.data, c.isDigit = true) :
    keyNumber key = (toDouble (leadingNumber key) : Nat) := by
  unfold keyNumber
  rw [firstDigitRun_eq, if_neg (leadingDigits_ne_nil key h)]
  simp only [parseInt, decimalValue_eq, leadingNumber]

theorem leadingNumber_lt (key : String) :
    leadingNumber key < 10 ^ (leadingDigits key).length := by
  unfold leadingNumber
  have h := Nat.ofDigits_lt_base_pow_length (b := 10)
    (l := (leadingDigits key).reverse.map (fun c => c.toNat - 48)) (by omega) (by
      intro x hx
      obtain ⟨c, hc, rfl⟩ := List.mem_map.1 hx
      have hc2 : c ∈ leadingDigits key := List.mem_reverse.1 hc
      have hdig : c.isDigit = true := by
        unfold leadingDigits at hc2
        exact List.mem_takeWhile_imp hc2
      rw [← isDigit_eq] at hdig
      simp only [isDigit, Bool.and_eq_true, decide_eq_true_eq] at hdig
      omega)
  simpa using h

theorem keyNumber_eq_leadingNumber (key : String) (h : ∃ c ∈ key.data, c.isDigit = true)
    (hlen : (leadingDigits key).length ≤ 15) : keyNumber key = (leadingNumber key : Nat) := by
  rw [keyNumber_eq_toDouble key h]
  have h1 := leadingNumber_lt key
  have h2 : 10 ^ (leadingDigits key).length ≤ 10 ^ 15 :=
    Nat.pow_le_pow_right (by omega) hlen
  have h3 : leadingNumber key < 2 ^ 53 := by
    have : (10 : Nat) ^ 15 < 2 ^ 53 := by decide
    omega
  have h4 : toDouble (leadingNumber key) = leadingNumber key := by
    unfold toDouble
    rw [if_pos h3]
  rw [h4]

theorem excessBits_le (fuel : Nat) :
    ∀ n k : Nat, n / 2 ^ k < 2 ^ 53 → excessBits fuel n ≤ k := by
  induction fuel with
  | zero => intro n k _; simp [excessBits]
  | succ fuel ih =>
    intro n k h
    unfold excessBits
    by_cases hn : n < 2 ^ 53
    · rw [if_pos hn]
      omega
    · rw [if_neg hn]
      cases k with
      | zero => simp at h; omega
      | succ k =>
        have hk : n / 2 / 2 ^ k < 2 ^ 53 := by
          rw [Nat.div_div_eq_div_mul, ← Nat.pow_succ']
          exact h
        have := ih (n / 2) k hk
        omega

theorem two_pow_le (e k : Nat) (h : e ≤ k) : 2 ^ e ≤ 2 ^ k :=
  Nat.pow_le_pow_right (Nat.succ_pos 1) h

theorem ten_pow_le (e k : Nat) (h : e ≤ k) : 10 ^ e ≤ 10 ^ k :=
  Nat.pow_le_pow_right (Nat.succ_pos 9) h

theorem two_pow_971 : (2 : Nat) ^ 971 = 2 ^ 256 * 2 ^ 256 * 2 ^ 256 * 2 ^ 203 := by
  rw [← pow_add, ← pow_add, ← pow_add]

theorem ten_pow_308 : (10 : Nat) ^ 308 = 10 ^ 154 * 10 ^ 154 := by
  rw [← pow_add]

theorem toDouble_lt_infinity (n : Nat) (h : n < 10 ^ 154 * 10 ^ 154) :
    toDouble n < infinity := by
  have hinf : infinity = 2 ^ 53 * (2 ^ 256 * 2 ^ 256 * 2 ^ 256 * 2 ^ 203) := by decide
  have hbig : 10 ^ 154 * 10 ^ 154 + 2 ^ 256 * 2 ^ 256 * 2 ^ 256 * 2 ^ 203 < infinity := by
    decide
  unfold toDouble
  by_cases hn : n < 2 ^ 53
  · rw [if_pos hn]
    have : (2 : Nat) ^ 53 < infinity := by decide
    omega
  · rw [if_neg hn]
    apply lt_of_le_of_lt (Nat.min_le_left _ _)
    have he : excessBits n n ≤ 971 := by
      apply excessBits_le
      rw [Nat.div_lt_iff_lt_mul (by positivity), two_pow_971, ← hinf]
      omega
    have h2e := two_pow_le _ _ he
    rw [two_pow_971] at h2e
    clear he
    have hq : n / 2 ^ excessBits n n * 2 ^ excessBits n n ≤ n := Nat.div_mul_le_self _ _
    have hle : (if 2 ^ excessBits n n / 2 < n % 2 ^ excessBits n n ∨
          (n % 2 ^ excessBits n n = 2 ^ excessBits n n / 2 ∧
            n / 2 ^ excessBits n n % 2 = 1) then
        n / 2 ^ excessBits n n + 1
      else n / 2 ^ excessBits n n) * 2 ^ excessBits n n ≤
        n / 2 ^ excessBits n n * 2 ^ excessBits n n + 2 ^ excessBits n n := by
      split
      · rw [Nat.add_mul, Nat.one_mul]
      · omega
    omega

theorem keyNumber_lt_infinity (key : String) (h : ∃ c ∈ key.data, c.isDigit = true)
    (hlen : (leadingDigits key).length ≤ 308) : keyNumber key < (infinity : Nat) := by
  rw [keyNumber_eq_toDouble key h]
  have h1 := leadingNumber_lt key
  have h2 := ten_pow_le _ _ hlen
  rw [ten_pow_308] at h2
  have := toDouble_lt_infinity (leadingNumber key) (by omega)
  exact_mod_cast this

/-! ## Claims about the order of the accumulation -/

theorem sortEntries_eq_of_digits (lc : String → String → Int) (l : List SelectionEntry)
    (h : ∀ e ∈ l, ∃ c ∈ e.key.data, c.isDigit = true) :
    sortEntries lc l = arraySort (fun a b => keyNumber a.key - keyNumber b.key) l := by
  unfold sortEntries
  apply arraySort_congr
  intro a ha b hb
  exact compareEntries_eq_keyNumber lc a b (firstDigitRun_ne_none _ (h a ha))
    (firstDigitRun_ne_none _ (h b hb))

/-- C11 (as stated, refuted): the sort does not always leave two entries that the
comparator ties in the order they had after the merge.  Selecting the three paragraphs of
a document with a preamble, an item "a)" and an item "1)" in one pass merges them as
"text_1", "a)", "1)"; the keys "text_1" and "1)" both have the number 1 and compare as 0,
yet the sort, which finds a descending run and reverses it, returns "1)", "a)", "text_1",
with "1)" now before "text_1". -/
theorem tied_entries_keep_order_refuted :
    (¬ ∀ (lc : String → String → Int) (a b : SelectionEntry) (l : List SelectionEntry),
        (∃ c ∈ a.key.data, c.isDigit = true) → (∃ c ∈ b.key.data, c.isDigit = true) →
        leadingNumber a.key = leadingNumber b.key →
        compareEntries lc a b = 0 ∧
          (List.Sublist [a, b] l → List.Sublist [a, b] (sortEntries lc l))) ∧
      collectSelections (indexOf tiedKeysDocument) []
          ["Preamble text", "Lettered item", "Numbered item"] =
        [{ key := "text_1", value := "Preamble text" }, { key := "a)", value := "Lettered item" },
         { key := "1)", value := "Numbered item" }] ∧
      compareEntries codepointCompare { key := "text_1", value := "Preamble text" }
          { key := "1)", value := "Numbered item" } = 0 ∧
      (getListInfoFromSelection codepointCompare
          ["Preamble text", "Lettered item", "Numbered item"]
          { clipboardData := [], allParagraphsData := indexOf tiedKeysDocument }).clipboardData =
        [{ key := "1)", value := "Numbered item" }, { key := "a)", value := "Lettered item" },
         { key := "text_1", value := "Preamble text" }] := by
  refine ⟨?_, by decide, by decide, by decide⟩
  intro h
  have h1 := (h codepointCompare { key := "text_1", value := "Preamble text" }
    { key := "1)", value := "Numbered item" }
    [{ key := "text_1", value := "Preamble text" }, { key := "a)", value := "Lettered item" },
     { key := "1)", value := "Numbered item" }] (by decide) (by decide) (by decide)).2
    (by decide)
  revert h1
  decide

/-- C11 (amended): the comparator returns 0 for the keys "2.10" and "2.9", and for any
two keys whose first runs of digits have at most 308 digits, so that both denote finite
numbers, and denote the same integer; sorting a list in which every key contains a digit
leaves two such entries, one before the other, in that relative order. -/
theorem equal_digit_runs_keep_order (lc : String → String → Int) (a b : SelectionEntry)
    (l : List SelectionEntry) (ha : ∃ c ∈ a.key.data, c.isDigit = true)
    (hb : ∃ c ∈ b.key.data, c.isDigit = true)
    (hla : (leadingDigits a.key).length ≤ 308) (hlb : (leadingDigits b.key).length ≤ 308)
    (hxy : leadingNumber a.key = leadingNumber b.key) :
    (∀ v w : String, compareEntries lc { key := "2.10", value := v }
        { key := "2.9", value := w } = 0) ∧
      (keyNumber a.key < (infinity : Nat) ∧ keyNumber b.key < (infinity : Nat) ∧
        compareEntries lc a b = 0) ∧
      ((∀ e ∈ l, ∃ c ∈ e.key.data, c.isDigit = true) →
        List.Sublist [a, b] l → List.Sublist [a, b] (sortEntries lc l)) := by
  have hkey : keyNumber a.key = keyNumber b.key := by
    rw [keyNumber_eq_toDouble _ ha, keyNumber_eq_toDouble _ hb, hxy]
  have hab : compareEntries lc a b = 0 := by
    rw [compareEntries_eq_keyNumber lc a b (firstDigitRun_ne_none _ ha)
      (firstDigitRun_ne_none _ hb), hkey]
    omega
  refine ⟨?_, ⟨keyNumber_lt_infinity _ ha hla, keyNumber_lt_infinity _ hb hlb, hab⟩, ?_⟩
  · intro v w
    have h210 : firstDigitRun "2.10" = some ['2'] := by decide
    have h29 : firstDigitRun "2.9" = some ['2'] := by decide
    rw [compareEntries_of_digits lc _ _ ['2'] ['2'] h210 h29]
    omega
  · intro hl hsub
    rw [sortEntries_eq_of_digits lc l hl]
    apply arraySort_stable (fun e : SelectionEntry => keyNumber e.key) l [a, b] hsub
    simp [hkey]

theorem equal_digit_runs_keep_order_witness :
    compareEntries codepointCompare { key := "2.10", value := "Tenth" }
        { key := "2.9", value := "Ninth" } = 0 ∧
      List.Sublist [{ key := "2.10", value := "Tenth" }, { key := "2.9", value := "Ninth" }]
        (sortEntries codepointCompare
          [{ key := "3)", value := "Third" }, { key := "2.10", value := "Tenth" },
           { key := "1)", value := "First" }, { key := "2.9", value := "Ninth" }]) :=
  have h := equal_digit_runs_keep_order codepointCompare { key := "2.10", value := "Tenth" }
    { key := "2.9", value := "Ninth" }
    [{ key := "3)", value := "Third" }, { key := "2.10", value := "Tenth" },
     { key := "1)", value := "First" }, { key := "2.9", value := "Ninth" }]
    (by decide) (by decide) (by decide) (by decide) (by decide)
  ⟨h.2.1.2.2, h.2.2 (by decide) (by decide)⟩

/-- C16 (as stated, refuted): with keys that all contain a digit the accumulation is not
always in non-decreasing order of the numbers.  The markers "9007199254740993)" and
"9007199254740992)" parse to the same double, 2^53, so the comparator ties them and the
pass leaves the larger number first. -/
theorem pass_sorts_by_first_digit_run_refuted :
    (¬ ∀ (lc : String → String → Int) (sel : List String) (s : Session),
        collectSelections s.allParagraphsData s.clipboardData sel ≠ [] →
        (∀ e ∈ (getListInfoFromSelection lc sel s).clipboardData,
          ∃ c ∈ e.key.data, c.isDigit = true) →
        (getListInfoFromSelection lc sel s).clipboardData.Pairwise
          (fun a b => leadingNumber a.key ≤ leadingNumber b.key)) ∧
      parseInt "9007199254740993".data = 9007199254740992 ∧
      (getListInfoFromSelection codepointCompare ["Large item", "Next item"]
          { clipboardData := [], allParagraphsData := indexOf hugeNumberDocument }).clipboardData =
        [{ key := "9007199254740993)", value := "Large item" },
         { key := "9007199254740992)", value := "Next item" }] := by
  refine ⟨?_, by decide, by decide⟩
  intro h
  have h1 := h codepointCompare ["Large item", "Next item"]
    { clipboardData := [], allParagraphsData := indexOf hugeNumberDocument }
    (by decide) (by decide)
  revert h1
  decide

/-- C16 (amended): after a collector pass that adds at least one entry, if every key of
the resulting accumulation contains a digit and its first run of digits has at most 15
digits, the accumulation is in non-decreasing order of the integer that the first run of
digits of each key denotes. -/
theorem pass_sorts_by_first_digit_run (lc : String → String → Int) (sel : List String)
    (s : Session)
    (hnew : collectSelections s.allParagraphsData s.clipboardData sel ≠ [])
    (hdigits : ∀ e ∈ (getListInfoFromSelection lc sel s).clipboardData,
      ∃ c ∈ e.key.data, c.isDigit = true)
    (hbound : ∀ e ∈ (getListInfoFromSelection lc sel s).clipboardData,
      (leadingDigits e.key).length ≤ 15) :
    (getListInfoFromSelection lc sel s).clipboardData.Pairwise
      (fun a b => leadingNumber a.key ≤ leadingNumber b.key) := by
  rw [getListInfo_of_ne_nil lc sel s hnew] at hdigits hbound ⊢
  have hl : ∀ e ∈ s.clipboardData ++
      collectSelections s.allParagraphsData s.clipboardData sel,
      ∃ c ∈ e.key.data, c.isDigit = true :=
    fun e he => hdigits e ((mem_sortEntries lc _ e).2 he)
  have hsorted := arraySort_sorted (fun e : SelectionEntry => keyNumber e.key)
    (s.clipboardData ++ collectSelections s.allParagraphsData s.clipboardData sel)
  rw [← sortEntries_eq_of_digits lc _ hl] at hsorted
  refine hsorted.imp_of_mem ?_
  intro a b ha hb hab
  rw [keyNumber_eq_leadingNumber a.key (hdigits a ha) (hbound a ha),
    keyNumber_eq_leadingNumber b.key (hdigits b hb) (hbound b hb)] at hab
  exact_mod_cast hab

theorem pass_sorts_by_first_digit_run_witness :
    (getListInfoFromSelection codepointCompare ["Tenth point", "Ninth point"]
        { clipboardData := [], allParagraphsData := indexOf ninthTenthDocument }).clipboardData.Pairwise
      (fun a b => leadingNumber a.key ≤ leadingNumber b.key) :=
  pass_sorts_by_first_digit_run codepointCompare ["Tenth point", "Ninth point"]
    { clipboardData := [], allParagraphsData := indexOf ninthTenthDocument }
    (by decide) (by decide) (by decide)

end TaskPane
